import Mathlib

/-!
Verification development for the `scraper_agent` site-ingestion pipeline
(crawler / site builder / comparator in `scraper_agent/{utils,agent,
site_builder,comparator}.py`).

The Python sources are shallowly embedded as executable Lean definitions:
pure helpers become Lean functions over `String`/`List Char`, the crawl
loop becomes a fuel-indexed transition function over an explicit state
record that also accumulates an event log, and filesystem effects become
explicit write-event lists.  Behaviour of the Python standard-library
collaborators that the sources call (`urllib.parse`, `pathlib
.PurePosixPath`, `hashlib.sha256`, `difflib.SequenceMatcher`, `re`-based
whitespace handling) is modelled faithfully from CPython's reference
implementations, restricted to the configurations actually used by the
sources (e.g. `SequenceMatcher` with `isjunk=None`, `autojunk=True`).
Unicode-only niceties (full Unicode case folding and the full Unicode
whitespace table) are modelled on their ASCII/Latin-1 core, which is the
alphabet exercised by every claim.
-/

set_option linter.unnecessarySeqFocus false

namespace Scraper

/-! ### Python string primitives -/

/-- Characters treated as whitespace by Python's `str.strip()` and by the
`re` module's `\s` class (ASCII/Latin-1 portion). -/
def isPySpace (c : Char) : Bool :=
  c = ' ' || c = '\t' || c = '\n' || c = '\r' || c = '\x0b' || c = '\x0c' ||
  c = '\x1c' || c = '\x1d' || c = '\x1e' || c = '\x1f' || c = '\x85' || c = '\xa0'

/-- `str.strip()` on a character list. -/
def pyStripL (l : List Char) : List Char :=
  ((l.dropWhile isPySpace).reverse.dropWhile isPySpace).reverse

/-- Python `str.strip()`. -/
def pyStrip (s : String) : String := String.mk (pyStripL s.data)

/-- ASCII lower-casing of one character (core of Python `str.lower()`). -/
def asciiLower (c : Char) : Char :=
  if 'A' ≤ c && c ≤ 'Z' then Char.ofNat (c.toNat + 32) else c

/-- `str.lower()` on a character list. -/
def lowerL (l : List Char) : List Char := l.map asciiLower

/-- Python `str.lower()`. -/
def pyLower (s : String) : String := String.mk (lowerL s.data)

theorem dropWhile_length_le (p : Char → Bool) (l : List Char) :
    (l.dropWhile p).length ≤ l.length := by
  induction l with
  | nil => simp [List.dropWhile]
  | cons c cs ih =>
    simp only [List.dropWhile]
    by_cases h : p c
    · simp [h]; omega
    · simp [h]

/-- One step of replacing every maximal whitespace run by a single space
(the `re.compile(r"\s+").sub(" ", ...)` in `utils.clean_text`). -/
def collapseWs (l : List Char) : List Char :=
  match l with
  | [] => []
  | c :: cs =>
    if isPySpace c then ' ' :: collapseWs (cs.dropWhile isPySpace)
    else c :: collapseWs cs
termination_by l.length
decreasing_by
  · exact Nat.lt_succ_of_le (dropWhile_length_le _ _)
  · exact Nat.lt_succ_of_le (Nat.le_refl _)

/-- `utils.clean_text`: map non-breaking spaces to plain spaces, collapse
whitespace runs to one space, strip. -/
def clean_text (s : String) : String :=
  pyStrip (String.mk (collapseWs (s.data.map (fun c => if c = '\xa0' then ' ' else c))))

/-- Python regex `\w` (ASCII portion: alphanumeric or underscore). -/
def isPyWord (c : Char) : Bool := c.isAlphanum || c = '_'

/-- A character that belongs to a punctuation token of `utils.word_tokens`:
neither a word character nor whitespace. -/
def isPunctTok (c : Char) : Bool := !isPyWord c && !isPySpace c

/-- `re.findall(r"\w+|[^\w\s]+", ...)`: the maximal-run tokenizer used by
`utils.word_tokens`. -/
def tokenizeL (l : List Char) : List (List Char) :=
  match l with
  | [] => []
  | c :: cs =>
    if isPyWord c then
      (c :: cs.takeWhile isPyWord) :: tokenizeL (cs.dropWhile isPyWord)
    else if isPySpace c then tokenizeL cs
    else (c :: cs.takeWhile isPunctTok) :: tokenizeL (cs.dropWhile isPunctTok)
termination_by l.length
decreasing_by
  · exact Nat.lt_succ_of_le (dropWhile_length_le _ _)
  · exact Nat.lt_succ_of_le (Nat.le_refl _)
  · exact Nat.lt_succ_of_le (dropWhile_length_le _ _)

/-- `utils.word_tokens`: clean the text, then tokenize into maximal word
runs and maximal punctuation runs (whitespace is never a token). -/
def word_tokens (s : String) : List String :=
  (tokenizeL (clean_text s).data).map String.mk

/-! ### SHA-256 (`hashlib.sha256`) and `utils.stable_id`

Machine words are `Nat` reduced mod `2^32` at every step. -/

def m32 (x : Nat) : Nat := x % 4294967296

def rotr32 (n x : Nat) : Nat := m32 ((x >>> n) ||| (x <<< (32 - n)))

def shaS0 (x : Nat) : Nat := rotr32 7 x ^^^ rotr32 18 x ^^^ (x >>> 3)

def shaS1 (x : Nat) : Nat := rotr32 17 x ^^^ rotr32 19 x ^^^ (x >>> 10)

def shaB0 (x : Nat) : Nat := rotr32 2 x ^^^ rotr32 13 x ^^^ rotr32 22 x

def shaB1 (x : Nat) : Nat := rotr32 6 x ^^^ rotr32 11 x ^^^ rotr32 25 x

def shaCh (x y z : Nat) : Nat := (x &&& y) ^^^ ((x ^^^ 4294967295) &&& z)

def shaMaj (x y z : Nat) : Nat := (x &&& y) ^^^ (x &&& z) ^^^ (y &&& z)

/-- The 64 SHA-256 round constants (FIPS 180-4 §4.2.2), in decimal. -/
def shaK : List Nat :=
  [1116352408, 1899447441, 3049323471, 3921009573, 961987163, 1508970993,
   2453635748, 2870763221, 3624381080, 310598401, 607225278, 1426881987,
   1925078388, 2162078206, 2614888103, 3248222580, 3835390401, 4022224774,
   264347078, 604807628, 770255983, 1249150122, 1555081692, 1996064986,
   2554220882, 2821834349, 2952996808, 3210313671, 3336571891, 3584528711,
   113926993, 338241895, 666307205, 773529912, 1294757372, 1396182291,
   1695183700, 1986661051, 2177026350, 2456956037, 2730485921, 2820302411,
   3259730800, 3345764771, 3516065817, 3600352804, 4094571909, 275423344,
   430227734, 506948616, 659060556, 883997877, 958139571, 1322822218,
   1537002063, 1747873779, 1955562222, 2024104815, 2227730452, 2361852424,
   2428436474, 2756734187, 3204031479, 3329325298]

/-- The eight SHA-256 initial hash values (FIPS 180-4 §5.3.3), in decimal. -/
def shaH0 : List Nat :=
  [1779033703, 3144134277, 1013904242, 2773480762,
   1359893119, 2600822924, 528734635, 1541459225]

/-- Big-endian bytes of a value, fixed width in bytes. -/
def beBytes (width x : Nat) : List Nat :=
  match width with
  | 0 => []
  | w + 1 => (x >>> (8 * w)) % 256 :: beBytes w x

/-- SHA-256 padding of a byte message. -/
def shaPad (msg : List Nat) : List Nat :=
  let len := msg.length
  let zeros := (120 - (len + 1) % 64) % 64
  msg ++ [128] ++ List.replicate zeros 0 ++ beBytes 8 (8 * len)

/-- Combine four bytes (big-endian) into one 32-bit word. -/
def word32OfBytes : List Nat → Nat
  | b0 :: b1 :: b2 :: b3 :: _ => ((b0 <<< 24) ||| (b1 <<< 16) ||| (b2 <<< 8) ||| b3)
  | _ => 0

/-- The sixteen 32-bit words of one 64-byte block. -/
def blockWords (block : List Nat) : List Nat :=
  (List.range 16).map (fun i => word32OfBytes (block.drop (4 * i)))

/-- Extend the 16-word schedule to 64 words. -/
def shaExtend (fuel : Nat) (w : List Nat) : List Nat :=
  match fuel with
  | 0 => w
  | f + 1 =>
    let n := w.length
    let x := m32 (w.getD (n - 16) 0 + shaS0 (w.getD (n - 15) 0) +
                  w.getD (n - 7) 0 + shaS1 (w.getD (n - 2) 0))
    shaExtend f (w ++ [x])

/-- One compression round. -/
def shaRound (st : List Nat) (kw : Nat × Nat) : List Nat :=
  match st with
  | [a, b, c, d, e, f, g, h] =>
    let t1 := m32 (h + shaB1 e + shaCh e f g + kw.1 + kw.2)
    let t2 := m32 (shaB0 a + shaMaj a b c)
    [m32 (t1 + t2), a, b, c, m32 (d + t1), e, f, g]
  | other => other

/-- Process one 64-byte block. -/
def shaBlock (h : List Nat) (block : List Nat) : List Nat :=
  let w := shaExtend 48 (blockWords block)
  let st := (shaK.zip w).foldl shaRound h
  (h.zip st).map (fun p => m32 (p.1 + p.2))

/-- Fold the compression function over the padded message. -/
def shaBlocks (fuel : Nat) (h : List Nat) (msg : List Nat) : List Nat :=
  match fuel with
  | 0 => h
  | f + 1 =>
    match msg with
    | [] => h
    | _ => shaBlocks f (shaBlock h (msg.take 64)) (msg.drop 64)

/-- UTF-8 encoding of one character. -/
def utf8Bytes (c : Char) : List Nat :=
  let n := c.toNat
  if n < 128 then [n]
  else if n < 2048 then [192 + n / 64, 128 + n % 64]
  else if n < 65536 then [224 + n / 4096, 128 + (n / 64) % 64, 128 + n % 64]
  else [240 + n / 262144, 128 + (n / 4096) % 64, 128 + (n / 64) % 64, 128 + n % 64]

/-- UTF-8 encoding of a string (`str.encode("utf-8")`). -/
def utf8Encode (s : String) : List Nat := s.data.flatMap utf8Bytes

def hexChar (n : Nat) : Char :=
  if n < 10 then Char.ofNat (48 + n) else Char.ofNat (87 + n)

/-- Lower-case hex rendering of one 32-bit word. -/
def hexWord32 (x : Nat) : List Char :=
  [hexChar ((x >>> 28) % 16), hexChar ((x >>> 24) % 16), hexChar ((x >>> 20) % 16),
   hexChar ((x >>> 16) % 16), hexChar ((x >>> 12) % 16), hexChar ((x >>> 8) % 16),
   hexChar ((x >>> 4) % 16), hexChar (x % 16)]

/-- `hashlib.sha256(s.encode("utf-8")).hexdigest()`. -/
def sha256hex (s : String) : String :=
  let msg := shaPad (utf8Encode s)
  let h := shaBlocks (msg.length / 64 + 1) shaH0 msg
  String.mk (h.flatMap hexWord32)

/-- `utils.stable_id`: first 16 hex characters of the SHA-256 digest of the
UTF-8 encoded URL. -/
def stable_id (url : String) : String := (sha256hex url).take 16

/-! ### `urllib.parse` (CPython reference semantics) -/

/-- Split a character list at the first occurrence of `c`:
`some (before, after)` when `c` occurs, `none` otherwise. -/
def splitAtFirst (c : Char) : List Char → Option (List Char × List Char)
  | [] => none
  | x :: xs =>
    if x = c then some ([], xs)
    else (splitAtFirst c xs).map (fun p => (x :: p.1, p.2))

/-- Split a character list at the last occurrence of `c`. -/
def splitAtLast (c : Char) (l : List Char) : Option (List Char × List Char) :=
  (splitAtFirst c l.reverse).map (fun p => (p.2.reverse, p.1.reverse))

/-- Characters allowed after the first character of a URL scheme
(`urllib.parse.scheme_chars`). -/
def isSchemeChar (c : Char) : Bool := c.isAlphanum || c = '+' || c = '-' || c = '.'

/-- Characters `urlsplit` removes anywhere in the URL
(`_UNSAFE_URL_BYTES_TO_REMOVE = "\t\r\n"`). -/
def removeUnsafe (l : List Char) : List Char :=
  l.filter (fun c => !(c = '\t' || c = '\r' || c = '\n'))

/-- The scheme-recognition step of `urlsplit`: the prefix before the first
`:` is a scheme when it is nonempty, starts with an ASCII letter, and its
remaining characters are scheme characters; it is returned lower-cased. -/
def splitScheme (l : List Char) : Option (List Char × List Char) :=
  match splitAtFirst ':' l with
  | none => none
  | some (pre, rest) =>
    match pre with
    | [] => none
    | c :: cs =>
      if c.isAlpha && cs.all isSchemeChar then some (lowerL (c :: cs), rest)
      else none

/-- `_splitnetloc`: consume the authority up to the first `/`, `?` or `#`. -/
def splitNetloc : List Char → List Char × List Char
  | [] => ([], [])
  | c :: cs =>
    if c = '/' || c = '?' || c = '#' then ([], c :: cs)
    else
      let p := splitNetloc cs
      (c :: p.1, p.2)

/-- The result type of `urlsplit` (without `params`). -/
structure SplitResult where
  scheme : List Char
  netloc : List Char
  path : List Char
  query : List Char
  fragment : List Char
deriving Repr, DecidableEq

/-- `urllib.parse.urlsplit` (with `allow_fragments=True`): remove
`\t\r\n`, recognise the scheme, split off the netloc after `//`, then the
fragment at the first `#`, then the query at the first `?`.  The
mismatched-IPv6-bracket `ValueError` is reported as `Except.error`. -/
def urlsplitL (defaultScheme l : List Char) : Except String SplitResult :=
  let l := removeUnsafe l
  let sr := match splitScheme l with
    | some p => p
    | none => (removeUnsafe defaultScheme, l)
  let nr := if sr.2.take 2 = ['/', '/'] then splitNetloc (sr.2.drop 2) else ([], sr.2)
  if ('[' ∈ nr.1 && ']' ∉ nr.1) || (']' ∈ nr.1 && '[' ∉ nr.1) then
    Except.error "Invalid IPv6 URL"
  else
    let fr := match splitAtFirst '#' nr.2 with
      | some p => p
      | none => (nr.2, [])
    let qr := match splitAtFirst '?' fr.1 with
      | some p => p
      | none => (fr.1, [])
    Except.ok ⟨sr.1, nr.1, qr.1, qr.2, fr.2⟩

/-- The result type of `urlparse` (with `params`). -/
structure ParseResult where
  scheme : List Char
  netloc : List Char
  path : List Char
  params : List Char
  query : List Char
  fragment : List Char
deriving Repr, DecidableEq

/-- `_splitparams`: split the parameters off the last path segment. -/
def splitParams (p : List Char) : List Char × List Char :=
  if '/' ∈ p then
    match splitAtLast '/' p with
    | some (pre, seg) =>
      match splitAtFirst ';' seg with
      | some (a, b) => (pre ++ '/' :: a, b)
      | none => (p, [])
    | none => (p, [])
  else
    match splitAtFirst ';' p with
    | some (a, b) => (a, b)
    | none => (p, [])

/-- `urllib.parse.urlparse`: `urlsplit` plus parameter splitting (the
`;params` suffix of the last path segment). -/
def urlparseL (defaultScheme l : List Char) : Except String ParseResult :=
  (urlsplitL defaultScheme l).map (fun s =>
    let pp := if ';' ∈ s.path then splitParams s.path else (s.path, [])
    ⟨s.scheme, s.netloc, pp.1, pp.2, s.query, s.fragment⟩)

/-- `urllib.parse.urlunparse` composed with `urlunsplit`. -/
def urlunparseL (r : ParseResult) : List Char :=
  let u := if r.params = [] then r.path else r.path ++ ';' :: r.params
  let u :=
    if r.netloc ≠ [] || u.take 2 = ['/', '/'] then
      let u := if u ≠ [] && u.take 1 ≠ ['/'] then '/' :: u else u
      '/' :: '/' :: (r.netloc ++ u)
    else u
  let u := if r.scheme ≠ [] then r.scheme ++ ':' :: u else u
  let u := if r.query ≠ [] then u ++ '?' :: r.query else u
  if r.fragment ≠ [] then u ++ '#' :: r.fragment else u

/-- Schemes of `urllib.parse.uses_relative`. -/
def usesRelative : List (List Char) :=
  ["", "ftp", "http", "gopher", "nntp", "imap", "wais", "file", "https",
   "shttp", "mms", "prospero", "rtsp", "rtspu", "sftp", "svn", "svn+ssh",
   "ws", "wss"].map String.data

/-- Schemes of `urllib.parse.uses_netloc`. -/
def usesNetloc : List (List Char) :=
  ["", "ftp", "http", "gopher", "nntp", "telnet", "imap", "wais", "file",
   "mms", "https", "shttp", "snews", "prospero", "rtsp", "rtspu", "rsync",
   "svn", "svn+ssh", "sftp", "nfs", "git", "git+ssh", "ws", "wss"].map String.data

/-- Split a list on a separator character (Python `str.split(sep)`:
empty pieces are kept). -/
def splitOnChar (c : Char) : List Char → List (List Char)
  | [] => [[]]
  | x :: xs =>
    let r := splitOnChar c xs
    if x = c then [] :: r
    else
      match r with
      | [] => [[x]]
      | h :: t => (x :: h) :: t

/-- `'/'.join` for character lists. -/
def joinSlash (parts : List (List Char)) : List Char :=
  match parts with
  | [] => []
  | [p] => p
  | p :: rest => p ++ '/' :: joinSlash rest

/-- The dot-segment resolution loop of `urljoin`. -/
def resolveSegs (acc : List (List Char)) : List (List Char) → List (List Char)
  | [] => acc
  | seg :: rest =>
    if seg = ['.', '.'] then resolveSegs (acc.dropLast) rest
    else if seg = ['.'] then resolveSegs acc rest
    else resolveSegs (acc ++ [seg]) rest

/-- `urllib.parse.urljoin` (CPython algorithm, `allow_fragments=True`). -/
def urljoinL (base url : List Char) : Except String (List Char) := do
  if base = [] then return url
  if url = [] then return base
  let b ← urlparseL [] base
  let r ← urlparseL b.scheme url
  if r.scheme ≠ b.scheme || r.scheme ∉ usesRelative then return url
  let mut netloc := r.netloc
  if r.scheme ∈ usesNetloc then
    if r.netloc ≠ [] then
      return urlunparseL ⟨r.scheme, r.netloc, r.path, r.params, r.query, r.fragment⟩
    netloc := b.netloc
  if r.path = [] && r.params = [] then
    let q := if r.query = [] then b.query else r.query
    return urlunparseL ⟨r.scheme, netloc, b.path, b.params, q, r.fragment⟩
  let baseParts := splitOnChar '/' b.path
  let baseParts := if baseParts.getLast? ≠ some [] then baseParts.dropLast else baseParts
  let segments :=
    if r.path.take 1 = ['/'] then splitOnChar '/' r.path
    else
      match baseParts ++ splitOnChar '/' r.path with
      | [] => []
      | first :: tail =>
        match tail.dropLast with
        | mid => first :: mid.filter (· ≠ []) ++ tail.drop (tail.length - 1)
  let resolved := resolveSegs [] segments
  let resolved :=
    if segments.getLast? = some ['.'] || segments.getLast? = some ['.', '.'] then
      resolved ++ [[]]
    else resolved
  let path := joinSlash resolved
  let path := if path = [] then ['/'] else path
  return urlunparseL ⟨r.scheme, netloc, path, r.params, r.query, r.fragment⟩

/-- Schemes rejected by `utils.normalize_url`
(`_DISALLOWED_SCHEMES`). -/
def disallowedSchemes : List (List Char) :=
  ["mailto", "tel", "javascript", "data"].map String.data

/-- `utils.normalize_url` on character lists: strip, resolve against the
base when given, reject scheme-less / host-less / disallowed-scheme URLs,
lower-case scheme and host, drop the fragment, replace an empty path by
`/`.  `Except.error` models an uncaught `ValueError` from `urlsplit`. -/
def normalizeUrlL (url : List Char) (base : Option (List Char)) :
    Except String (Option (List Char)) :=
  let u := pyStripL url
  if u = [] then Except.ok none
  else
    let ub : Except String (List Char) := match base with
      | some b => urljoinL b u
      | none => Except.ok u
    match ub with
    | Except.error e => Except.error e
    | Except.ok u =>
      match urlparseL [] u with
      | Except.error e => Except.error e
      | Except.ok p =>
        if p.scheme = [] || p.netloc = [] then Except.ok none
        else if lowerL p.scheme ∈ disallowedSchemes then Except.ok none
        else
          Except.ok (some (urlunparseL
            ⟨lowerL p.scheme, lowerL p.netloc,
             (if p.path = [] then ['/'] else p.path), p.params, p.query, []⟩))

/-- `utils.normalize_url` on strings. -/
def normalize_url (url : String) (base : Option String) :
    Except String (Option String) :=
  (normalizeUrlL url.data (base.map String.data)).map (Option.map String.mk)

/-- `utils.same_domain`: compare the lower-cased netloc components. -/
def same_domain (a b : String) : Except String Bool := do
  let pa ← urlparseL [] a.data
  let pb ← urlparseL [] b.data
  return lowerL pa.netloc = lowerL pb.netloc

/-! ### `pathlib.PurePosixPath` and `utils.url_to_site_relpath` -/

/-- The root prefix of a POSIX path as computed by `pathlib`: exactly two
leading slashes are preserved, any other number collapses to one. -/
def posixRoot (l : List Char) : List Char :=
  if l.take 2 = ['/', '/'] && l.take 3 ≠ ['/', '/', '/'] then ['/', '/']
  else if l.take 1 = ['/'] then ['/']
  else []

/-- The retained components of a POSIX path: empty segments and `.`
segments are dropped. -/
def posixParts (l : List Char) : List (List Char) :=
  (splitOnChar '/' l).filter (fun p => p ≠ [] && p ≠ ['.'])

/-- `str(PurePosixPath(l))`. -/
def posixStr (l : List Char) : List Char :=
  let root := posixRoot l
  let parts := posixParts l
  if root = [] && parts = [] then ['.']
  else root ++ joinSlash parts

/-- `PurePosixPath(l).name`: the final component, `""` for pure roots. -/
def posixName (l : List Char) : List Char :=
  (posixParts l).getLastD []

/-- The suffix of a component name: the part from the final dot on, when
that dot is neither leading nor trailing. -/
def nameSuffix (name : List Char) : List Char :=
  match splitAtLast '.' name with
  | none => []
  | some (pre, post) => if pre ≠ [] && post ≠ [] then '.' :: post else []

/-- `PurePosixPath(l).suffix`: the extension of the final component. -/
def posixSuffix (l : List Char) : List Char := nameSuffix (posixName l)

/-- `utils.url_to_site_relpath`: root maps to `index.html`; a path whose
final component has a suffix maps to the normalized path with leading
slashes stripped; any other path maps to the stripped normalized path
plus `/index.html`. -/
def url_to_site_relpath (url : String) : Except String String :=
  match urlparseL [] url.data with
  | .error e => .error e
  | .ok p =>
    let path := if p.path = [] then ['/'] else p.path
    let posix := posixStr path
    if posix = ['/'] then .ok "index.html"
    else if posixSuffix path ≠ [] then
      .ok (String.mk (posix.dropWhile (fun c => c = '/')))
    else .ok (String.mk (posix.dropWhile (fun c => c = '/') ++ "/index.html".data))

/-! ### Parsed HTML documents (the BeautifulSoup tree)

`_fetch_and_extract` hands the fetched body to `BeautifulSoup(html,
"lxml")` and works exclusively on the resulting tree, so the embedding
represents a fetched HTML body directly as its parsed element tree
(parsing is deterministic: one body, one tree).  Tag and attribute names
are stored as the parser produces them (lower-cased). -/

inductive Node where
  | elem (tag : String) (attrs : List (String × String)) (children : List Node)
  | text (s : String)
deriving Repr

mutual

/-- All strict descendants of a node in document (preorder) order —
the iteration order of `soup.find_all`. -/
def descendants : Node → List Node
  | .text _ => []
  | .elem _ _ cs => descendantsList cs

/-- Preorder descendants of a forest. -/
def descendantsList : List Node → List Node
  | [] => []
  | c :: cs => c :: descendants c ++ descendantsList cs

end

mutual

/-- The descendant strings of a node in document order (what
`get_text` iterates over). -/
def textStrings : Node → List String
  | .text s => [s]
  | .elem _ _ cs => textStringsList cs

/-- Descendant strings of a forest. -/
def textStringsList : List Node → List String
  | [] => []
  | c :: cs => textStrings c ++ textStringsList cs

end

/-- `node.get_text(sep, strip=True)`: join the stripped, non-empty
descendant strings with the separator. -/
def getTextStrip (sep : String) (n : Node) : String :=
  String.intercalate sep (((textStrings n).map pyStrip).filter (fun s => s ≠ ""))

/-- Does a node match one of the given element names
(`soup(["script", "style", ...])`)? -/
def isNamedElem (names : List String) : Node → Bool
  | .elem t _ _ => names.contains t
  | .text _ => false

mutual

/-- `tag.decompose()` applied to every element named in `names`: drop
those elements (with their subtrees) from the tree. -/
def removeTags (names : List String) : Node → Node
  | .text s => .text s
  | .elem t a cs => .elem t a (removeTagsList names cs)

/-- `removeTags` over a forest. -/
def removeTagsList (names : List String) : List Node → List Node
  | [] => []
  | c :: cs =>
    if isNamedElem names c then removeTagsList names cs
    else removeTags names c :: removeTagsList names cs

end

/-- `attrs.get(k)`: first binding of an attribute. -/
def attrGet (attrs : List (String × String)) (k : String) : Option String :=
  (attrs.find? (fun p => p.1 = k)).map (fun p => p.2)

/-- `soup.title`: the first `<title>` element in document order. -/
def findTitle (root : Node) : Option Node :=
  (descendants root).find? (fun n =>
    match n with
    | .elem t _ _ => t = "title"
    | .text _ => false)

/-- `soup.find_all(["pre", "code"])` in document order. -/
def findPreCode (root : Node) : List Node :=
  (descendants root).filter (fun n =>
    match n with
    | .elem t _ _ => t = "pre" || t = "code"
    | .text _ => false)

/-- Substring test on character lists. -/
def containsSubL (needle : List Char) : List Char → Bool
  | [] => needle.isEmpty
  | c :: cs => needle.isPrefixOf (c :: cs) || containsSubL needle cs

/-- Substring test (Python `needle in hay`). -/
def containsSub (needle hay : String) : Bool := containsSubL needle.data hay.data

/-- Python `str.split()` with no argument: maximal whitespace-separated
words, no empty pieces. -/
def splitWsL (l : List Char) : List (List Char) :=
  match l with
  | [] => []
  | c :: cs =>
    if isPySpace c then splitWsL cs
    else (c :: cs.takeWhile (fun d => !isPySpace d)) ::
         splitWsL (cs.dropWhile (fun d => !isPySpace d))
termination_by l.length
decreasing_by
  · exact Nat.lt_succ_of_le (Nat.le_refl _)
  · exact Nat.lt_succ_of_le (dropWhile_length_le _ _)

/-- Python `str.split()` on strings. -/
def splitWs (s : String) : List String := (splitWsL s.data).map String.mk

/-! ### `WebScraperAgent._extract_links` / `._extract_assets` -/

/-- The `href` values of `soup.find_all("a", href=True)` in document
order. -/
def anchorHrefs (root : Node) : List String :=
  (descendants root).filterMap (fun n =>
    match n with
    | .elem "a" attrs _ => attrGet attrs "href"
    | _ => none)

/-- The candidate URL strings collected by `_extract_assets` before
normalization, in the order the source builds them: `script[src]`, then
rel-matching `link[href]`, then `img[src]`, `source[src]`,
`source[srcset]`, `img[srcset]`. -/
def assetCandidates (root : Node) : List String :=
  let ds := descendants root
  let withAttr := fun (tag attr : String) =>
    ds.filterMap (fun n =>
      match n with
      | .elem t attrs _ => if t = tag then attrGet attrs attr else none
      | .text _ => none)
  let relLinks :=
    ds.filterMap (fun n =>
      match n with
      | .elem t attrs _ =>
        if t = "link" then
          match attrGet attrs "href" with
          | none => none
          | some href =>
            let rel := pyLower (String.intercalate " "
              (splitWs ((attrGet attrs "rel").getD "")))
            if containsSub "stylesheet" rel || containsSub "icon" rel ||
               containsSub "preload" rel then some href
            else none
        else none
      | .text _ => none)
  let srcsetOf := fun (tag : String) =>
    (withAttr tag "srcset").flatMap (fun v =>
      (splitOnChar ',' v.data).filterMap (fun s =>
        if pyStripL s = [] then none
        else some (String.mk ((s.dropWhile isPySpace).takeWhile (fun d => !isPySpace d)))))
  withAttr "script" "src" ++ relLinks ++ withAttr "img" "src" ++
    withAttr "source" "src" ++ srcsetOf "source" ++ srcsetOf "img"

/-- The shared yield loop of `_extract_links` / `_extract_assets`: skip
empty candidates, normalize against the base URL, keep the successes; a
`ValueError` raised by normalization propagates. -/
def collectNorm (base : String) : List String → Except String (List String)
  | [] => .ok []
  | c :: t =>
    if c = "" then collectNorm base t
    else
      match normalize_url c (some base) with
      | .error e => .error e
      | .ok u =>
        match collectNorm base t with
        | .error e => .error e
        | .ok rest =>
          match u with
          | none => .ok rest
          | some v => .ok (v :: rest)

/-- `list(self._extract_links(soup, base_url=final_url))`. -/
def extractLinks (root : Node) (base : String) : Except String (List String) :=
  collectNorm base (anchorHrefs root)

/-- `list(self._extract_assets(soup, base_url=final_url))`. -/
def extractAssets (root : Node) (base : String) : Except String (List String) :=
  collectNorm base (assetCandidates root)

/-! ### `WebScraperAgent._fetch_and_extract` -/

/-- The record persisted per attempted URL (`models.PageRecord`). -/
structure PageRecord where
  url : String
  final_url : String
  status_code : Option Nat
  fetched_at : String
  title : Option String
  text : String
  code_blocks : List String
  links : List String
  assets : List String
  headers : List (String × String)
  error : Option String
deriving Repr, DecidableEq

/-- A filesystem write performed by the crawler, tagged by target
directory under the output root. -/
inductive FsWrite where
  | raw (name : String)
  | page (name : String)
  | asset (name : String)
deriving Repr, DecidableEq

/-- The outcome of `client.get(url)`: a response (with its parsed body)
or a raised exception. -/
inductive FetchOutcome where
  | response (status : Nat) (finalUrl : String) (headers : List (String × String)) (doc : Node)
  | exception (msg : String)

/-- `resp.headers.get(k, "")` — httpx header lookup is case-insensitive. -/
def headerGet (hs : List (String × String)) (k : String) : String :=
  (((hs.find? (fun p => pyLower p.1 = pyLower k)).map (fun p => p.2))).getD ""

/-- The element names removed before text extraction. -/
def nonContentTags : List String := ["script", "style", "noscript", "template"]

/-- The HTML-family content-type test of `_fetch_and_extract`
(`"text/html" not in content_type and "application/xhtml+xml" not in
content_type` negated). -/
def isHtmlContentType (ct : String) : Bool :=
  containsSub "text/html" ct || containsSub "application/xhtml+xml" ct

/-- `WebScraperAgent._fetch_and_extract`, returning the `PageRecord`
together with the list of filesystem writes it performs, in order.
The three paths of the source: non-HTML content type (raw `.bin` write
only), successful HTML parse (raw `.html` write, then the record JSON),
and a raised exception (record JSON only; when the exception is raised
during extraction the raw `.html` write has already happened). -/
def fetchAndExtract (web : String → FetchOutcome) (now : String) (url : String) :
    PageRecord × List FsWrite :=
  match web url with
  | .exception e =>
    (⟨url, url, none, now, none, "", [], [], [], [], some e⟩,
     [.page (stable_id url ++ ".json")])
  | .response status finalUrl headers doc =>
    let contentType := headerGet headers "content-type"
    if !isHtmlContentType contentType then
      (⟨url, finalUrl, some status, now, none, "", [], [], [], headers,
        some ("Non-HTML content-type: " ++ contentType)⟩,
       [.raw (stable_id url ++ ".bin")])
    else
      let rawW := FsWrite.raw (stable_id url ++ ".html")
      let title := (findTitle doc).map (getTextStrip "")
      match extractLinks doc finalUrl, extractAssets doc finalUrl with
      | .ok links, .ok assets =>
        let cleaned := removeTags nonContentTags doc
        let code_blocks :=
          ((findPreCode cleaned).map (fun n => clean_text (getTextStrip "\n" n))).filter
            (fun t => t ≠ "")
        let text := clean_text (getTextStrip " " cleaned)
        (⟨url, finalUrl, some status, now, title, text, code_blocks, links,
          assets, headers, none⟩,
         [rawW, .page (stable_id url ++ ".json")])
      | .error e, _ =>
        (⟨url, url, none, now, none, "", [], [], [], [], some e⟩,
         [rawW, .page (stable_id url ++ ".json")])
      | _, .error e =>
        (⟨url, url, none, now, none, "", [], [], [], [], some e⟩,
         [rawW, .page (stable_id url ++ ".json")])

/-! ### `WebScraperAgent.run`

The sequential crawl loop of `agent.py` lines 64–157, embedded as a
fuel-indexed transition function.  Every theorem about the loop is proved
for all fuel values, so it covers in particular the fuel large enough to
reach the loop's natural exit.  Besides the state the source keeps
(frontier deque, `seen`, `seen_assets`, the three counters), the
embedding accumulates the filesystem writes and an event log recording
what happened to each dequeued URL; the log adds bookkeeping only and
changes no decision.  Asset downloads are tracked as events and a
counter; the downloaded asset bytes and their on-disk names play no role
in any claim and are not materialised. -/

/-- One observable step of the crawl loop. -/
inductive Event where
  | marked (url : String)
  | skippedSeen (url : String)
  | skippedDepth (url : String) (depth : Nat)
  | skippedDomain (url : String)
  | skippedRobots (url : String)
  | fetchedPage (url : String) (ok : Bool)
  | appended (url : String) (depth : Nat)
  | assetSaved (url : String)
deriving Repr, DecidableEq

/-- The crawl configuration (`WebScraperAgent.__init__` fields used by
`run()`).  `robots` is the result of `_init_robots()`: `none` when robots
checking is disabled or the robots fetch failed, otherwise the parser's
`can_fetch` predicate for the configured user agent. -/
structure CrawlConfig where
  maxPages : Nat
  maxDepth : Nat
  sameDomainOnly : Bool
  downloadAssets : Bool
  robots : Option (String → Bool)
  now : String

/-- `urlparse(u).netloc`, total: the loop only meets URLs produced by
`normalize_url`, for which parsing cannot raise. -/
def netlocOf (u : String) : List Char :=
  match urlparseL [] u.data with
  | .ok p => p.netloc
  | .error _ => []

/-- The mutable state of `run()` plus the write/event history. -/
structure CrawlState where
  q : List (String × Nat)
  seen : List String
  seenAssets : List String
  pagesOk : Nat
  pagesFailed : Nat
  assetsSaved : Nat
  writes : List FsWrite
  log : List Event

/-- `WebScraperAgent._download_asset` succeeds when the GET neither
raises nor returns a status `>= 400`. -/
def downloadAssetOk (web : String → FetchOutcome) (url : String) : Bool :=
  match web url with
  | .exception _ => false
  | .response status _ _ _ => status < 400

/-- Does the robots gate of the loop reject this URL
(`self._robots is not None and not self._robots.can_fetch(...)`)? -/
def robotsRejects (robots : Option (String → Bool)) (url : String) : Bool :=
  match robots with
  | some canFetch => !canFetch url
  | none => false

/-- The asset-download block at the end of a successful fetch iteration
(`agent.py` lines 132–142), folded over the record's assets. -/
def assetStep (cfg : CrawlConfig) (web : String → FetchOutcome)
    (seedDomain : List Char) (st : CrawlState) (au : String) : CrawlState :=
  if au ∈ st.seenAssets then st
  else if cfg.sameDomainOnly ∧ netlocOf au ≠ seedDomain then st
  else if robotsRejects cfg.robots au then st
  else if downloadAssetOk web au then
    { st with assetsSaved := st.assetsSaved + 1,
              seenAssets := st.seenAssets ++ [au],
              log := st.log ++ [Event.assetSaved au] }
  else st

/-- The link-enqueueing step at the end of a fetch iteration
(`agent.py` lines 126–129): append each discovered link not yet seen,
at depth one more than the current page. -/
def enqStep (depth : Nat) (st : CrawlState) (link : String) : CrawlState :=
  if link ∈ st.seen then st
  else { st with q := st.q ++ [(link, depth + 1)],
                 log := st.log ++ [Event.appended link (depth + 1)] }

/-- One iteration of the crawl loop (`agent.py` lines 90–142): `none`
when the loop exits (empty frontier or exhausted page budget), otherwise
the state after processing one dequeued entry. -/
def crawlStep (cfg : CrawlConfig) (web : String → FetchOutcome)
    (seedDomain : List Char) (s : CrawlState) : Option CrawlState :=
  match s.q with
  | [] => none
  | (url, depth) :: rest =>
    if cfg.maxPages ≤ s.pagesOk + s.pagesFailed then none
    else if url ∈ s.seen then
      some { s with q := rest, log := s.log ++ [Event.skippedSeen url] }
    else
      let s1 := { s with q := rest, seen := s.seen ++ [url],
                         log := s.log ++ [Event.marked url] }
      if cfg.maxDepth < depth then
        some { s1 with log := s1.log ++ [Event.skippedDepth url depth] }
      else if cfg.sameDomainOnly ∧ netlocOf url ≠ seedDomain then
        some { s1 with log := s1.log ++ [Event.skippedDomain url] }
      else if robotsRejects cfg.robots url then
        some { s1 with log := s1.log ++ [Event.skippedRobots url] }
      else
        let fr := fetchAndExtract web cfg.now url
        let record := fr.1
        let ok := record.error.isNone
        let s2 := { s1 with
          pagesOk := s1.pagesOk + (if ok then 1 else 0),
          pagesFailed := s1.pagesFailed + (if ok then 0 else 1),
          writes := s1.writes ++ fr.2,
          log := s1.log ++ [Event.fetchedPage url ok] }
        let s3 := record.links.foldl (enqStep depth) s2
        let s4 :=
          if cfg.downloadAssets ∧ ok then
            record.assets.foldl (assetStep cfg web seedDomain) s3
          else s3
        some s4

/-- The crawl loop (`agent.py` lines 90–142): iterate `crawlStep` until
it exits.  All loop theorems are proved for every fuel value. -/
def runLoop (cfg : CrawlConfig) (web : String → FetchOutcome)
    (seedDomain : List Char) : Nat → CrawlState → CrawlState
  | 0, s => s
  | fuel + 1, s =>
    match crawlStep cfg web seedDomain s with
    | none => s
    | some s2 => runLoop cfg web seedDomain fuel s2

/-- The initial loop state seeded with the normalized start URL. -/
def initCrawlState (start : String) : CrawlState :=
  ⟨[(start, 0)], [], [], 0, 0, 0, [], []⟩

/-- `WebScraperAgent.__init__` + `run()`: normalize the start URL
(`ValueError` when it does not normalize), then drain the frontier. -/
def runCrawl (cfg : CrawlConfig) (web : String → FetchOutcome)
    (startRaw : String) (fuel : Nat) : Except String CrawlState :=
  match normalize_url startRaw none with
  | .error e => .error e
  | .ok none => .error ("Invalid start_url: " ++ startRaw)
  | .ok (some start) =>
    .ok (runLoop cfg web (netlocOf start) fuel (initCrawlState start))

/-- The URLs fetched during the crawl, in fetch order. -/
def fetchedUrls (l : List Event) : List String :=
  l.filterMap (fun e =>
    match e with
    | .fetchedPage u _ => some u
    | _ => none)

/-- The number of page fetches in the log. -/
def countFetches (l : List Event) : Nat := (fetchedUrls l).length

/-- How many times a given URL was fetched. -/
def fetchCount (l : List Event) (u : String) : Nat := (fetchedUrls l).count u

/-- How many times a given URL was appended to the frontier. -/
def appendCount (l : List Event) (u : String) : Nat :=
  (l.filterMap (fun e =>
    match e with
    | .appended v _ => some v
    | _ => none)).count u

/-! ### `difflib.SequenceMatcher` (CPython, `isjunk=None`, `autojunk=True`)

`comparator.py` instantiates `SequenceMatcher(a=..., b=...)`, so `bjunk`
is always empty (the junk-extension loops of `find_longest_match` never
fire and are omitted) while `autojunk` popularity filtering is active.
`j2len` dictionaries become total functions defaulting to `0`, and the
recursive block collection gathers blocks in range order, which
reproduces the `matching_blocks.sort()` of the source. -/

/-- Is a value "popular" under autojunk (appears in more than
`1 + len(b)//100` positions of a `b` with at least 200 elements)? -/
def isPopular (b : List String) (v : String) : Bool :=
  200 ≤ b.length && b.length / 100 + 1 < b.count v

/-- `self.b2j[v]`: the ascending positions of `v` in `b`, empty for
popular values. -/
def b2jLookup (b : List String) (v : String) : List Nat :=
  if isPopular b v then []
  else (List.range b.length).filter (fun j => b.getD j "" = v)

/-- A matching block `(i, j, size)`. -/
structure FMatch where
  i : Nat
  j : Nat
  size : Nat
deriving Repr, DecidableEq

/-- The inner loop of `find_longest_match` over the `b` positions of
`a[r]`: entries below `blo` are skipped, the scan stops at `bhi`, each
processed position extends the diagonal chain recorded in the previous
row's `j2len` and bumps the best match on strict improvement. -/
def innerLoop (blo bhi r : Nat) (old : Nat → Nat) :
    List Nat → FMatch → (Nat → Nat) → ((Nat → Nat) × FMatch)
  | [], best, newj => (newj, best)
  | j :: js, best, newj =>
    if j < blo then innerLoop blo bhi r old js best newj
    else if bhi ≤ j then (newj, best)
    else
      let k := (if j = 0 then 0 else old (j - 1)) + 1
      let newj2 := fun x => if x = j then k else newj x
      let best2 : FMatch := if best.size < k then ⟨r + 1 - k, j + 1 - k, k⟩ else best
      innerLoop blo bhi r old js best2 newj2

/-- One outer-loop step of `find_longest_match` (one row `r`). -/
def mainLoopStep (b2j : String → List Nat) (a : List String) (blo bhi : Nat)
    (st : (Nat → Nat) × FMatch) (r : Nat) : (Nat → Nat) × FMatch :=
  innerLoop blo bhi r st.1 (b2j (a.getD r "")) st.2 (fun _ => 0)

/-- The chain-scanning phase of `find_longest_match`. -/
def mainLoop (a b : List String) (alo ahi blo bhi : Nat) : FMatch :=
  ((List.range' alo (ahi - alo)).foldl
    (mainLoopStep (b2jLookup b) a blo bhi) (fun _ => 0, ⟨alo, blo, 0⟩)).2

/-- The backward non-junk extension loop of `find_longest_match`. -/
def extendBack (a b : List String) (alo blo : Nat) : Nat → FMatch → FMatch
  | 0, m => m
  | fuel + 1, m =>
    if alo < m.i ∧ blo < m.j ∧ a.getD (m.i - 1) "" = b.getD (m.j - 1) "" then
      extendBack a b alo blo fuel ⟨m.i - 1, m.j - 1, m.size + 1⟩
    else m

/-- The forward non-junk extension loop of `find_longest_match`. -/
def extendFwd (a b : List String) (ahi bhi : Nat) : Nat → FMatch → FMatch
  | 0, m => m
  | fuel + 1, m =>
    if m.i + m.size < ahi ∧ m.j + m.size < bhi ∧
       a.getD (m.i + m.size) "" = b.getD (m.j + m.size) "" then
      extendFwd a b ahi bhi fuel ⟨m.i, m.j, m.size + 1⟩
    else m

/-- `SequenceMatcher.find_longest_match` restricted to empty `bjunk`. -/
def findLongestMatch (a b : List String) (alo ahi blo bhi : Nat) : FMatch :=
  let m0 := mainLoop a b alo ahi blo bhi
  let m1 := extendBack a b alo blo m0.i m0
  extendFwd a b ahi bhi (ahi - (m1.i + m1.size)) m1

/-- The recursive collection phase of `get_matching_blocks`, gathering
blocks in range order. -/
def matchingBlocksAux (a b : List String) :
    Nat → Nat → Nat → Nat → Nat → List FMatch
  | 0, _, _, _, _ => []
  | fuel + 1, alo, ahi, blo, bhi =>
    let m := findLongestMatch a b alo ahi blo bhi
    if m.size = 0 then []
    else
      (if alo < m.i ∧ blo < m.j then
        matchingBlocksAux a b fuel alo m.i blo m.j
      else []) ++
      [m] ++
      (if m.i + m.size < ahi ∧ m.j + m.size < bhi then
        matchingBlocksAux a b fuel (m.i + m.size) ahi (m.j + m.size) bhi
      else [])

/-- The adjacent-block merge pass of `get_matching_blocks`
(`non_adjacent`), seeded with the zero block. -/
def mergeBlocks : FMatch → List FMatch → List FMatch
  | cur, [] => if cur.size ≠ 0 then [cur] else []
  | cur, x :: xs =>
    if cur.i + cur.size = x.i ∧ cur.j + cur.size = x.j then
      mergeBlocks ⟨cur.i, cur.j, cur.size + x.size⟩ xs
    else
      (if cur.size ≠ 0 then [cur] else []) ++ mergeBlocks x xs

/-- `SequenceMatcher.get_matching_blocks`. -/
def getMatchingBlocks (a b : List String) : List FMatch :=
  let raw := matchingBlocksAux a b (a.length + b.length + 1) 0 a.length 0 b.length
  mergeBlocks ⟨0, 0, 0⟩ raw ++ [⟨a.length, b.length, 0⟩]

/-- Opcode tags. -/
inductive DTag where
  | equal
  | replace
  | delete
  | insert
deriving Repr, DecidableEq

/-- One opcode `(tag, a1, a2, b1, b2)`. -/
structure OpCode where
  tag : DTag
  a1 : Nat
  a2 : Nat
  b1 : Nat
  b2 : Nat
deriving Repr, DecidableEq

/-- The opcode-emission walk of `get_opcodes`. -/
def opcodesAux : Nat → Nat → List FMatch → List OpCode
  | _, _, [] => []
  | i, j, m :: ms =>
    let gap : List OpCode :=
      if i < m.i ∧ j < m.j then [⟨.replace, i, m.i, j, m.j⟩]
      else if i < m.i then [⟨.delete, i, m.i, j, m.j⟩]
      else if j < m.j then [⟨.insert, i, m.i, j, m.j⟩]
      else []
    let eq : List OpCode :=
      if m.size ≠ 0 then [⟨.equal, m.i, m.i + m.size, m.j, m.j + m.size⟩] else []
    gap ++ eq ++ opcodesAux (m.i + m.size) (m.j + m.size) ms

/-- `SequenceMatcher(a=..., b=...).get_opcodes()`. -/
def getOpcodes (a b : List String) : List OpCode :=
  opcodesAux 0 0 (getMatchingBlocks a b)

/-! ### `SiteComparator` -/

/-- `SiteComparator._extract_visible_text` applied to a parsed mirror
page: decompose `script`/`style`/`noscript`/`template`, then
`clean_text(soup.get_text(" ", strip=True))`. -/
def extractVisibleText (doc : Node) : String :=
  clean_text (getTextStrip " " (removeTags nonContentTags doc))

/-- The page text computed by `WebScraperAgent._fetch_and_extract` after
decomposing the non-content tags (`agent.py` lines 210–222). -/
def agentPageText (doc : Node) : String :=
  clean_text (getTextStrip " " (removeTags nonContentTags doc))

/-- The non-`equal` opcodes of a comparison (`comparator.py` line 52). -/
def diffOps (a b : List String) : List OpCode :=
  (getOpcodes a b).filter (fun op => op.tag ≠ DTag.equal)

/-- Does a compared page count as having diffs (`if diffs:`)? -/
def pageHasDiffs (remoteText localText : String) : Bool :=
  !(diffOps (word_tokens remoteText) (word_tokens localText)).isEmpty

/-! ### `SiteBuilder` -/

/-- A persisted page as `SiteBuilder._load_pages` sees it: the record's
`url`/`final_url` fields, the stable id injected from the JSON filename,
and whether `raw/<id>.html` exists. -/
structure StoredPage where
  url : String
  final_url : String
  id : String
  hasRaw : Bool
deriving Repr, DecidableEq

/-- A filesystem effect of `SiteBuilder.build`, in order.  Page writes
carry the path relative to the mirror root; the rewritten HTML content
is irrelevant to every claim and not materialised. -/
inductive BuildEvent where
  | assetCopied (name : String)
  | pageWrite (relpath : String)
  | rootIndex (target : String)
  | summaryWrite
deriving Repr, DecidableEq

/-- Python-dict assignment on an association list. -/
def dictInsert (m : List (String × String)) (k v : String) :
    List (String × String) :=
  if m.any (fun p => p.1 = k) then
    m.map (fun p => if p.1 = k then (k, v) else p)
  else m ++ [(k, v)]

/-- Python-dict lookup. -/
def dictGet (m : List (String × String)) (k : String) : Option String :=
  (m.find? (fun p => p.1 = k)).map (fun p => p.2)

/-- One step of the URL→local-path map construction (`site_builder.py`
lines 45–56): both the requested and the final URL map to the relative
path of the final (or requested) URL. -/
def urlMapStep (m : List (String × String)) (p : StoredPage) :
    Except String (List (String × String)) := do
  let requested ← normalize_url p.url none
  let final0 ← normalize_url p.final_url none
  let final := match final0 with
    | none => requested
    | some v => some v
  match final with
  | none => return m
  | some u => do
    let rel ← url_to_site_relpath u
    let m1 := match requested with
      | some r => dictInsert m r rel
      | none => m
    return dictInsert m1 u rel

/-- The per-record page-write step (`site_builder.py` lines 67–93): skip
records without raw HTML or without a mapped target, otherwise write the
rewritten page at its mapped relative path. -/
def pageWriteStep (urlMap : List (String × String)) (evs : List BuildEvent)
    (p : StoredPage) : Except String (List BuildEvent) := do
  let requested ← normalize_url p.url none
  let final0 ← normalize_url p.final_url none
  let final := match final0 with
    | none => requested
    | some v => some v
  match final with
  | none => return evs
  | some u =>
    if p.hasRaw then
      match dictGet urlMap u with
      | none => return evs
      | some rel => return evs ++ [BuildEvent.pageWrite rel]
    else return evs

/-- `SiteBuilder._write_root_index`: no write when no start URL was
given or it does not normalize; otherwise write `index.html` redirecting
to `url_to_site_relpath(start)`. -/
def rootIndexEvents (startUrl : Option String) : Except String (List BuildEvent) :=
  match startUrl with
  | none => .ok []
  | some su =>
    match normalize_url su none with
    | .error e => .error e
    | .ok none => .ok []
    | .ok (some sv) =>
      match url_to_site_relpath sv with
      | .error e => .error e
      | .ok target => .ok [BuildEvent.rootIndex target]

/-- `SiteBuilder.build`: fatal when no pages are persisted; otherwise
copy assets, write each rewritten page, write the root redirect, and
finally the build summary.  (An exception raised midway is modelled as
`Except.error` for the whole run; no claim inspects partially-performed
builds.) -/
def buildWrites (pages : List StoredPage) (assetNames : List String)
    (startUrl : Option String) : Except String (List BuildEvent) :=
  if pages = [] then .error "No pages found"
  else
    match pages.foldlM urlMapStep [] with
    | .error e => .error e
    | .ok urlMap =>
      match pages.foldlM (pageWriteStep urlMap) [] with
      | .error e => .error e
      | .ok pageEvents =>
        match rootIndexEvents startUrl with
        | .error e => .error e
        | .ok rootEvents =>
          .ok (assetNames.map BuildEvent.assetCopied ++ pageEvents ++ rootEvents ++
            [BuildEvent.summaryWrite])

/-! ## Claim theorems -/

deriving instance DecidableEq for Except

/-- Is a write a `pages/<...>.json` write? -/
def FsWrite.isPage : FsWrite → Bool
  | .page _ => true
  | _ => false

/-- A non-HTML response used to refute C1. -/
def c1web : String → FetchOutcome := fun _ =>
  FetchOutcome.response 200 "https://h/f" [("content-type", "application/pdf")]
    (Node.text "")

/-- C1 as stated is false: a fetch whose response has a non-HTML content
type persists only `raw/<id>.bin`; no `pages/<id>.json` is written. -/
theorem claim_C1_counterexample :
    (fetchAndExtract c1web "t" "https://h/doc").2
        = [FsWrite.raw (stable_id "https://h/doc" ++ ".bin")] ∧
    ((fetchAndExtract c1web "t" "https://h/doc").2.all
        (fun w => ! w.isPage)) = true := by
  constructor
  · rfl
  · rfl

/-- C1, amended: `_fetch_and_extract` persists the `PageRecord` as
`pages/<stable_id(url)>.json` — keyed by the originally requested `url`,
not the final URL — in the HTML-response path and in the exception path;
in the non-HTML-content-type path it persists only `raw/<id>.bin` and no
`PageRecord` JSON. -/
theorem claim_C1_persistence (web : String → FetchOutcome) (now url : String) :
    (∀ e, web url = FetchOutcome.exception e →
      (fetchAndExtract web now url).2 = [FsWrite.page (stable_id url ++ ".json")]) ∧
    (∀ status finalUrl headers doc,
      web url = FetchOutcome.response status finalUrl headers doc →
      (isHtmlContentType (headerGet headers "content-type") = true →
        FsWrite.page (stable_id url ++ ".json") ∈ (fetchAndExtract web now url).2) ∧
      (isHtmlContentType (headerGet headers "content-type") = false →
        (fetchAndExtract web now url).2 = [FsWrite.raw (stable_id url ++ ".bin")])) := by
  refine ⟨fun e he => ?_, fun status finalUrl headers doc hr => ⟨fun hct => ?_, fun hct => ?_⟩⟩
  · simp [fetchAndExtract, he]
  · simp only [fetchAndExtract, hr, hct, Bool.not_true, Bool.false_eq_true, if_false]
    rcases hl : extractLinks doc finalUrl with e | links <;>
      rcases ha : extractAssets doc finalUrl with e2 | assets <;>
      simp [hl, ha]
  · simp [fetchAndExtract, hr, hct]

/-- Witness for `claim_C1_persistence` at a concrete exception input. -/
theorem claim_C1_witness :
    (fetchAndExtract (fun _ => FetchOutcome.exception "boom") "t" "u").2
      = [FsWrite.page (stable_id "u" ++ ".json")] :=
  (claim_C1_persistence (fun _ => FetchOutcome.exception "boom") "t" "u").1 "boom" rfl

/-- The yield loop of the extractors preserves multiplicity: a URL `u`
occurs in the output exactly as often as candidates normalize to it. -/
theorem collectNorm_count (base : String) :
    ∀ (cands l : List String) (u : String),
      collectNorm base cands = Except.ok l →
      l.count u = (cands.filter (fun c =>
        decide (c ≠ "" ∧ normalize_url c (some base) = Except.ok (some u)))).length := by
  intro cands
  induction cands with
  | nil =>
    intro l u h
    simp only [collectNorm, Except.ok.injEq] at h
    simp [← h]
  | cons c cs ih =>
    intro l u h
    simp only [collectNorm] at h
    by_cases hc : c = ""
    · rw [if_pos hc] at h
      rw [List.filter_cons]
      have : (decide (c ≠ "" ∧ normalize_url c (some base) = Except.ok (some u))) = false := by
        simp [hc]
      rw [this]
      simp only [Bool.false_eq_true, if_false]
      exact ih l u h
    · rw [if_neg hc] at h
      rcases hn : normalize_url c (some base) with e | ou
      · rw [hn] at h
        simp [Except.bind] at h
      · rw [hn] at h
        rcases hrest : collectNorm base cs with e | rest
        · rw [hrest] at h
          cases ou <;> simp [Except.bind] at h
        · rw [hrest] at h
          rcases ou with _ | v
          · simp only [Except.bind, Except.ok.injEq] at h
            rw [List.filter_cons]
            have : (decide (c ≠ "" ∧ normalize_url c (some base) = Except.ok (some u))) = false := by
              simp [hn]
            rw [this]
            simp only [Bool.false_eq_true, if_false]
            exact h ▸ ih rest u hrest
          · simp only [Except.bind, Except.ok.injEq] at h
            rw [List.filter_cons, ← h]
            by_cases hv : v = u
            · subst hv
              have : (decide (c ≠ "" ∧ normalize_url c (some base) = Except.ok (some v))) = true := by
                simp [hn, hc]
              rw [this]
              simp [List.count_cons, ih rest v hrest]
            · have : (decide (c ≠ "" ∧ normalize_url c (some base) = Except.ok (some u))) = false := by
                simp [hn, hv]
              rw [this]
              simp only [Bool.false_eq_true, if_false]
              rw [List.count_cons]
              simp [hv, ih rest u hrest]

/-- A page whose HTML lists the same outbound link twice, to refute C5. -/
def c5doc : Node :=
  Node.elem "body" []
    [Node.elem "a" [("href", "https://h/x")] [],
     Node.elem "a" [("href", "https://h/x")] []]

/-- The web serving `c5doc`. -/
def c5web : String → FetchOutcome := fun _ =>
  FetchOutcome.response 200 "https://h/" [("content-type", "text/html")] c5doc

/-- C5 as stated is false: a successfully parsed page whose HTML
references the same URL twice gets a `PageRecord` whose `links` field
holds the normalized URL twice — the per-page lists are not
deduplicated. -/
theorem claim_C5_counterexample :
    (fetchAndExtract c5web "t" "https://h/").1.links = ["https://h/x", "https://h/x"] ∧
    ¬ (fetchAndExtract c5web "t" "https://h/").1.links.Nodup := by
  constructor
  · rfl
  · decide

/-- C5, amended: `links` and `assets` are the normalized URLs of the
page's candidates in discovery order with multiplicity preserved — a
URL occurs exactly as often as candidates normalize to it (so per-page
duplicates are possible; deduplication happens only crawl-globally). -/
theorem claim_C5_multiplicity (root : Node) (base : String)
    (links assets : List String) (u : String)
    (hl : extractLinks root base = Except.ok links)
    (ha : extractAssets root base = Except.ok assets) :
    links.count u = ((anchorHrefs root).filter (fun c =>
      decide (c ≠ "" ∧ normalize_url c (some base) = Except.ok (some u)))).length ∧
    assets.count u = ((assetCandidates root).filter (fun c =>
      decide (c ≠ "" ∧ normalize_url c (some base) = Except.ok (some u)))).length :=
  ⟨collectNorm_count base _ links u hl, collectNorm_count base _ assets u ha⟩

/-- Witness for `claim_C5_multiplicity` on the duplicate-link page. -/
theorem claim_C5_witness :
    (["https://h/x", "https://h/x"] : List String).count "https://h/x"
      = ((anchorHrefs c5doc).filter (fun c =>
          decide (c ≠ "" ∧ normalize_url c (some "https://h/")
            = Except.ok (some "https://h/x")))).length :=
  (claim_C5_multiplicity c5doc "https://h/" ["https://h/x", "https://h/x"] []
    "https://h/x" (by decide) (by decide)).1

/-- C8 as stated is false: `normalize_url` succeeds on
`"http://h/a #x"` with result `"http://h/a "` (the fragment is dropped
but the space before it stays in the path), and normalizing that result
strips the now-trailing space, giving a different URL — so
`normalize(normalize(u)) ≠ normalize(u)` for this `u`. -/
theorem claim_C8_counterexample :
    normalize_url "http://h/a #x" none = Except.ok (some "http://h/a ") ∧
    normalize_url "http://h/a " none = Except.ok (some "http://h/a") ∧
    ("http://h/a" : String) ≠ "http://h/a " := by
  exact ⟨by decide, by decide, by decide⟩

/-! ### Crawl-loop invariant machinery -/

/-- An invariant preserved by every loop iteration holds of the loop's
result, for every fuel value. -/
theorem runLoop_inv {cfg : CrawlConfig} {web : String → FetchOutcome}
    {sd : List Char} (Inv : CrawlState → Prop)
    (hstep : ∀ s s2, crawlStep cfg web sd s = some s2 → Inv s → Inv s2) :
    ∀ fuel s, Inv s → Inv (runLoop cfg web sd fuel s) := by
  intro fuel
  induction fuel with
  | zero => intro s h; exact h
  | succ f ih =>
    intro s h
    rcases hc : crawlStep cfg web sd s with _ | s2
    · rw [runLoop, hc]
      exact h
    · rw [runLoop, hc]
      exact ih s2 (hstep s s2 hc h)

/-- Specification of the link-enqueueing fold: it only appends frontier
pairs and `appended` events for links that were not seen when the fold
started, and leaves every other field unchanged. -/
theorem enqFold_spec (depth : Nat) :
    ∀ (links : List String) (s : CrawlState),
      ∃ ext pairs,
        links.foldl (enqStep depth) s =
          { s with q := s.q ++ pairs, log := s.log ++ ext } ∧
        ∀ e ∈ ext, ∃ u, e = Event.appended u (depth + 1) ∧ u ∉ s.seen := by
  intro links
  induction links with
  | nil =>
    intro s
    exact ⟨[], [], by cases s; simp, by simp⟩
  | cons l ls ih =>
    intro s
    rw [List.foldl_cons]
    by_cases hl : l ∈ s.seen
    · have : enqStep depth s l = s := by simp [enqStep, hl]
      rw [this]
      exact ih s
    · have hstep : enqStep depth s l =
          { s with q := s.q ++ [(l, depth + 1)],
                   log := s.log ++ [Event.appended l (depth + 1)] } := by
        simp [enqStep, hl]
      rw [hstep]
      obtain ⟨ext, pairs, heq, hext⟩ := ih
        { s with q := s.q ++ [(l, depth + 1)],
                 log := s.log ++ [Event.appended l (depth + 1)] }
      refine ⟨Event.appended l (depth + 1) :: ext, (l, depth + 1) :: pairs, ?_, ?_⟩
      · rw [heq]
        simp
      · intro e he
        rcases List.mem_cons.mp he with he | he
        · exact ⟨l, by rw [he], hl⟩
        · obtain ⟨u, hu1, hu2⟩ := hext e he
          exact ⟨u, hu1, hu2⟩

/-- Specification of the asset-download fold: it only bumps
`assetsSaved`, extends `seenAssets`, and appends `assetSaved` events. -/
theorem assetFold_spec (cfg : CrawlConfig) (web : String → FetchOutcome)
    (sd : List Char) :
    ∀ (assets : List String) (s : CrawlState),
      ∃ ext k saw,
        assets.foldl (assetStep cfg web sd) s =
          { s with assetsSaved := s.assetsSaved + k,
                   seenAssets := s.seenAssets ++ saw,
                   log := s.log ++ ext } ∧
        ∀ e ∈ ext, ∃ u, e = Event.assetSaved u := by
  intro assets
  induction assets with
  | nil =>
    intro s
    exact ⟨[], 0, [], by cases s; simp, by simp⟩
  | cons a as ih =>
    intro s
    rw [List.foldl_cons]
    by_cases h1 : a ∈ s.seenAssets
    · have : assetStep cfg web sd s a = s := by simp [assetStep, h1]
      rw [this]; exact ih s
    · by_cases h2 : cfg.sameDomainOnly ∧ netlocOf a ≠ sd
      · have : assetStep cfg web sd s a = s := by simp [assetStep, h1, h2]
        rw [this]; exact ih s
      · by_cases h3 : robotsRejects cfg.robots a = true
        · have : assetStep cfg web sd s a = s := by simp [assetStep, h1, h2, h3]
          rw [this]; exact ih s
        · by_cases h4 : downloadAssetOk web a = true
          · have hstep : assetStep cfg web sd s a =
                { s with assetsSaved := s.assetsSaved + 1,
                         seenAssets := s.seenAssets ++ [a],
                         log := s.log ++ [Event.assetSaved a] } := by
              simp [assetStep, h1, h2, h3, h4]
            rw [hstep]
            obtain ⟨ext, k, saw, heq, hext⟩ := ih
              { s with assetsSaved := s.assetsSaved + 1,
                       seenAssets := s.seenAssets ++ [a],
                       log := s.log ++ [Event.assetSaved a] }
            refine ⟨Event.assetSaved a :: ext, 1 + k, a :: saw, ?_, ?_⟩
            · rw [heq]
              simp [Nat.add_assoc]
            · intro e he
              rcases List.mem_cons.mp he with he | he
              · exact ⟨a, by rw [he]⟩
              · exact hext e he
          · have : assetStep cfg web sd s a = s := by
              simp [assetStep, h1, h2, h3, h4]
            rw [this]; exact ih s

/-- Case analysis of one successful loop iteration: the dequeued entry
was either already seen (skip, no budget charge), newly marked and then
skipped by the depth/domain/robots gate (no budget charge), or newly
marked and fetched (one budget charge, then enqueueing and asset
downloads). -/
theorem crawlStep_characterization (cfg : CrawlConfig)
    (web : String → FetchOutcome) (sd : List Char) (s s2 : CrawlState)
    (h : crawlStep cfg web sd s = some s2) :
    ∃ url depth rest, s.q = (url, depth) :: rest ∧
      s.pagesOk + s.pagesFailed < cfg.maxPages ∧
      ((url ∈ s.seen ∧
          s2 = { s with q := rest, log := s.log ++ [Event.skippedSeen url] }) ∨
       (url ∉ s.seen ∧
          ∃ ev, (ev = Event.skippedDepth url depth ∨ ev = Event.skippedDomain url ∨
                 ev = Event.skippedRobots url) ∧
            s2 = { s with q := rest, seen := s.seen ++ [url],
                          log := s.log ++ [Event.marked url, ev] }) ∨
       (url ∉ s.seen ∧
          ∃ ok ws pairs saw k ext,
            s2 = { q := rest ++ pairs, seen := s.seen ++ [url],
                   seenAssets := s.seenAssets ++ saw,
                   pagesOk := s.pagesOk + (if ok then 1 else 0),
                   pagesFailed := s.pagesFailed + (if ok then 0 else 1),
                   assetsSaved := s.assetsSaved + k,
                   writes := s.writes ++ ws,
                   log := s.log ++ Event.marked url :: Event.fetchedPage url ok :: ext } ∧
            ∀ e ∈ ext, (∃ u d, e = Event.appended u d ∧ u ∉ s.seen ++ [url]) ∨
                       (∃ u, e = Event.assetSaved u))) := by
  unfold crawlStep at h
  rcases hq : s.q with _ | ⟨⟨url, depth⟩, rest⟩
  · rw [hq] at h
    simp at h
  · rw [hq] at h
    simp only at h
    by_cases h1 : cfg.maxPages ≤ s.pagesOk + s.pagesFailed
    · rw [if_pos h1] at h
      simp at h
    · rw [if_neg h1] at h
      refine ⟨url, depth, rest, rfl, by omega, ?_⟩
      by_cases h2 : url ∈ s.seen
      · rw [if_pos h2] at h
        exact Or.inl ⟨h2, (Option.some.injEq _ _ ▸ h).symm⟩
      · rw [if_neg h2] at h
        by_cases h3 : cfg.maxDepth < depth
        · rw [if_pos h3] at h
          refine Or.inr (Or.inl ⟨h2, Event.skippedDepth url depth, Or.inl rfl, ?_⟩)
          simpa using h.symm
        · rw [if_neg h3] at h
          by_cases h4 : cfg.sameDomainOnly ∧ netlocOf url ≠ sd
          · rw [if_pos h4] at h
            refine Or.inr (Or.inl ⟨h2, Event.skippedDomain url, Or.inr (Or.inl rfl), ?_⟩)
            simpa using h.symm
          · rw [if_neg h4] at h
            by_cases h5 : robotsRejects cfg.robots url = true
            · rw [if_pos h5] at h
              refine Or.inr (Or.inl ⟨h2, Event.skippedRobots url, Or.inr (Or.inr rfl), ?_⟩)
              simpa using h.symm
            · rw [if_neg h5] at h
              refine Or.inr (Or.inr ⟨h2, ?_⟩)
              have h' := Option.some.inj h
              set fr := fetchAndExtract web cfg.now url with hfr
              set ok := fr.1.error.isNone with hok
              set s2b : CrawlState :=
                { q := rest,
                  seen := s.seen ++ [url],
                  seenAssets := s.seenAssets,
                  pagesOk := s.pagesOk + (if ok then 1 else 0),
                  pagesFailed := s.pagesFailed + (if ok then 0 else 1),
                  assetsSaved := s.assetsSaved,
                  writes := s.writes ++ fr.2,
                  log := s.log ++ [Event.marked url] ++ [Event.fetchedPage url ok] }
                with hs2b
              obtain ⟨ext1, pairs, heq1, hext1⟩ := enqFold_spec depth fr.1.links s2b
              have hseenb : s2b.seen = s.seen ++ [url] := rfl
              by_cases h6 : cfg.downloadAssets ∧ ok
              · rw [if_pos h6, heq1] at h'
                obtain ⟨ext2, k, saw, heq2, hext2⟩ :=
                  assetFold_spec cfg web sd fr.1.assets
                    { q := s2b.q ++ pairs, seen := s2b.seen,
                      seenAssets := s2b.seenAssets, pagesOk := s2b.pagesOk,
                      pagesFailed := s2b.pagesFailed, assetsSaved := s2b.assetsSaved,
                      writes := s2b.writes, log := s2b.log ++ ext1 }
                rw [heq2] at h'
                refine ⟨ok, fr.2, pairs, saw, k, ext1 ++ ext2, ?_, ?_⟩
                · rw [← h']
                  simp [hs2b, List.append_assoc]
                · intro e he
                  rcases List.mem_append.mp he with he | he
                  · obtain ⟨u, hu1, hu2⟩ := hext1 e he
                    exact Or.inl ⟨u, depth + 1, hu1, by rw [← hseenb]; exact hu2⟩
                  · exact Or.inr (hext2 e he)
              · rw [if_neg h6, heq1] at h'
                refine ⟨ok, fr.2, pairs, [], 0, ext1, ?_, ?_⟩
                · rw [← h']
                  simp [hs2b, List.append_assoc]
                · intro e he
                  obtain ⟨u, hu1, hu2⟩ := hext1 e he
                  exact Or.inl ⟨u, depth + 1, hu1, by rw [← hseenb]; exact hu2⟩

theorem fetchedUrls_append (a b : List Event) :
    fetchedUrls (a ++ b) = fetchedUrls a ++ fetchedUrls b := by
  simp [fetchedUrls]

theorem fetchedUrls_eq_nil {l : List Event}
    (h : ∀ e ∈ l, ∀ u b, e ≠ Event.fetchedPage u b) : fetchedUrls l = [] := by
  induction l with
  | nil => rfl
  | cons e es ih =>
    have he := h e (by simp)
    have hes := fun e2 hm => h e2 (List.mem_cons_of_mem _ hm)
    cases e with
    | fetchedPage u b => exact absurd rfl (he u b)
    | _ =>
      simp only [fetchedUrls, List.filterMap_cons] at *
      exact ih hes

theorem no_fetch_of_mixed {ext : List Event}
    (hext : ∀ e ∈ ext, (∃ u d, e = Event.appended u d ∧ True) ∨
                       (∃ u, e = Event.assetSaved u)) :
    ∀ e ∈ ext, ∀ u b, e ≠ Event.fetchedPage u b := by
  intro e he u b
  rcases hext e he with ⟨v, d, rfl, _⟩ | ⟨v, rfl⟩ <;> simp

/-- The budget/accounting invariant of the loop: the number of fetch
events equals `pages_ok + pages_failed`, and that total never exceeds
`max_pages`. -/
theorem budget_inv_preserved (cfg : CrawlConfig) (web : String → FetchOutcome)
    (sd : List Char) :
    ∀ s s2, crawlStep cfg web sd s = some s2 →
      (countFetches s.log = s.pagesOk + s.pagesFailed ∧
        s.pagesOk + s.pagesFailed ≤ cfg.maxPages) →
      (countFetches s2.log = s2.pagesOk + s2.pagesFailed ∧
        s2.pagesOk + s2.pagesFailed ≤ cfg.maxPages) := by
  intro s s2 hstep hinv
  obtain ⟨hcount, hbound⟩ := hinv
  obtain ⟨url, depth, rest, hq, hlt, hcase⟩ :=
    crawlStep_characterization cfg web sd s s2 hstep
  rcases hcase with ⟨hseen, rfl⟩ | ⟨hseen, ev, hev, rfl⟩ |
    ⟨hseen, ok, ws, pairs, saw, k, ext, rfl, hext⟩
  · refine ⟨?_, hbound⟩
    rw [countFetches, fetchedUrls_append]
    have h0 : fetchedUrls [Event.skippedSeen url] = [] := by simp [fetchedUrls]
    rw [h0]
    simpa [countFetches] using hcount
  · refine ⟨?_, hbound⟩
    rw [countFetches, fetchedUrls_append]
    have h0 : fetchedUrls [Event.marked url, ev] = [] := by
      rcases hev with rfl | rfl | rfl <;> simp [fetchedUrls]
    rw [h0]
    simpa [countFetches] using hcount
  · have hnil : fetchedUrls ext = [] :=
      fetchedUrls_eq_nil (no_fetch_of_mixed (by
        intro e he
        rcases hext e he with ⟨u, d, h1, h2⟩ | h1
        · exact Or.inl ⟨u, d, h1, trivial⟩
        · exact Or.inr h1))
    constructor
    · rw [countFetches, fetchedUrls_append]
      have h0 : fetchedUrls (Event.marked url :: Event.fetchedPage url ok :: ext)
          = url :: fetchedUrls ext := by
        simp [fetchedUrls]
      rw [h0, hnil]
      simp only [countFetches] at hcount
      rcases ok with _ | _ <;> simp [hcount] <;> omega
    · rcases ok with _ | _ <;> simp <;> omega

/-- C4: for every crawl and every fuel, the returned counters satisfy
`pages_ok + pages_failed ≤ max_pages`, and the number of fetch events in
the whole run equals `pages_ok + pages_failed` — entries skipped for
seen/depth/domain/robots reasons charge nothing, and no fetch happens
beyond the budget. -/
theorem claim_C4_budget (cfg : CrawlConfig) (web : String → FetchOutcome)
    (sd : List Char) (fuel : Nat) (start : String) :
    (runLoop cfg web sd fuel (initCrawlState start)).pagesOk +
        (runLoop cfg web sd fuel (initCrawlState start)).pagesFailed ≤ cfg.maxPages ∧
    countFetches (runLoop cfg web sd fuel (initCrawlState start)).log =
      (runLoop cfg web sd fuel (initCrawlState start)).pagesOk +
        (runLoop cfg web sd fuel (initCrawlState start)).pagesFailed := by
  have h := runLoop_inv
    (fun st => countFetches st.log = st.pagesOk + st.pagesFailed ∧
      st.pagesOk + st.pagesFailed ≤ cfg.maxPages)
    (budget_inv_preserved cfg web sd) fuel (initCrawlState start)
    (by simp [initCrawlState, countFetches, fetchedUrls])
  exact ⟨h.2, h.1⟩

/-- The at-most-once-fetch invariant: the fetched URLs are pairwise
distinct, and every fetched URL is in `seen`. -/
theorem nodup_inv_preserved (cfg : CrawlConfig) (web : String → FetchOutcome)
    (sd : List Char) :
    ∀ s s2, crawlStep cfg web sd s = some s2 →
      ((fetchedUrls s.log).Nodup ∧ ∀ u ∈ fetchedUrls s.log, u ∈ s.seen) →
      ((fetchedUrls s2.log).Nodup ∧ ∀ u ∈ fetchedUrls s2.log, u ∈ s2.seen) := by
  intro s s2 hstep hinv
  obtain ⟨hnd, hmem⟩ := hinv
  obtain ⟨url, depth, rest, hq, hlt, hcase⟩ :=
    crawlStep_characterization cfg web sd s s2 hstep
  rcases hcase with ⟨hseen, rfl⟩ | ⟨hseen, ev, hev, rfl⟩ |
    ⟨hseen, ok, ws, pairs, saw, k, ext, rfl, hext⟩
  · have h0 : fetchedUrls (s.log ++ [Event.skippedSeen url]) = fetchedUrls s.log := by
      rw [fetchedUrls_append]
      simp [fetchedUrls]
    exact ⟨h0 ▸ hnd, fun u hu => hmem u (h0 ▸ hu)⟩
  · have h0 : fetchedUrls (s.log ++ [Event.marked url, ev]) = fetchedUrls s.log := by
      rw [fetchedUrls_append]
      rcases hev with rfl | rfl | rfl <;> simp [fetchedUrls]
    refine ⟨h0 ▸ hnd, fun u hu => ?_⟩
    exact List.mem_append_left _ (hmem u (h0 ▸ hu))
  · have hnil : fetchedUrls ext = [] :=
      fetchedUrls_eq_nil (no_fetch_of_mixed (by
        intro e he
        rcases hext e he with ⟨u, d, h1, h2⟩ | h1
        · exact Or.inl ⟨u, d, h1, trivial⟩
        · exact Or.inr h1))
    have h0 : fetchedUrls (s.log ++ Event.marked url :: Event.fetchedPage url ok :: ext)
        = fetchedUrls s.log ++ url :: fetchedUrls ext := by
      rw [fetchedUrls_append]
      simp only [fetchedUrls, List.filterMap_cons]
    rw [hnil] at h0
    have hurl : url ∉ fetchedUrls s.log := fun hc => hseen (hmem url hc)
    constructor
    · rw [h0]
      simp [List.Nodup.append, List.nodup_append, hnd, hurl]
    · intro u hu
      rw [h0] at hu
      rcases List.mem_append.mp hu with hu | hu
      · exact List.mem_append_left _ (hmem u hu)
      · simp at hu
        subst hu
        exact List.mem_append_right _ (by simp)

/-- The seed site for the A/B/C frontier-dedup scenario of C2/C3:
page `http://s/` (A) links to B twice and to C once; page `http://s/c`
links to B once; B has no links. -/
def abcDoc : Node :=
  Node.elem "body" []
    [Node.elem "a" [("href", "http://s/b")] [],
     Node.elem "a" [("href", "http://s/b")] [],
     Node.elem "a" [("href", "http://s/c")] []]

/-- Page C of the scenario. -/
def cDoc : Node :=
  Node.elem "body" [] [Node.elem "a" [("href", "http://s/b")] []]

/-- The scenario web. -/
def abcWeb : String → FetchOutcome := fun u =>
  if u = "http://s/" then
    FetchOutcome.response 200 "http://s/" [("content-type", "text/html")] abcDoc
  else if u = "http://s/c" then
    FetchOutcome.response 200 "http://s/c" [("content-type", "text/html")] cDoc
  else
    FetchOutcome.response 200 u [("content-type", "text/html")]
      (Node.elem "body" [] [])

/-- The scenario configuration (assets off, generous budgets). -/
def abcCfg : CrawlConfig :=
  ⟨10, 5, true, false, none, "t0"⟩

/-- The scenario run. -/
def abcRun : CrawlState :=
  runLoop abcCfg abcWeb (netlocOf "http://s/") 20 (initCrawlState "http://s/")

/-- C2: in any single crawl each URL is fetched at most once (the
fetched URLs of the log are pairwise distinct), and in the concrete
scenario where page A links to B twice and page C links to B once, B is
fetched exactly once. -/
theorem claim_C2_fetch_once :
    (∀ (cfg : CrawlConfig) (web : String → FetchOutcome) (sd : List Char)
       (fuel : Nat) (start : String),
      (fetchedUrls (runLoop cfg web sd fuel (initCrawlState start)).log).Nodup) ∧
    fetchCount abcRun.log "http://s/b" = 1 := by
  constructor
  · intro cfg web sd fuel start
    exact (runLoop_inv
      (fun st => (fetchedUrls st.log).Nodup ∧ ∀ u ∈ fetchedUrls st.log, u ∈ st.seen)
      (nodup_inv_preserved cfg web sd) fuel (initCrawlState start)
      (by simp [initCrawlState, fetchedUrls])).1
  · decide

/-- A two-element sublist of an append splits: both elements in the
left part, both in the right, or one on each side. -/
theorem pair_sublist_append {α : Type} {a b : α} {l ext : List α}
    (h : List.Sublist [a, b] (l ++ ext)) :
    List.Sublist [a, b] l ∨ List.Sublist [a, b] ext ∨ (a ∈ l ∧ b ∈ ext) := by
  rw [List.sublist_append_iff] at h
  obtain ⟨l1, l2, heq, h1, h2⟩ := h
  rcases l1 with _ | ⟨x, _ | ⟨y, t⟩⟩
  · have hl2 : l2 = [a, b] := by simpa using heq.symm
    exact Or.inr (Or.inl (hl2 ▸ h2))
  · simp only [List.singleton_append, List.cons.injEq] at heq
    obtain ⟨e1, e2⟩ := heq
    refine Or.inr (Or.inr ⟨?_, ?_⟩)
    · exact List.singleton_sublist.mp (e1 ▸ h1)
    · exact List.singleton_sublist.mp (e2 ▸ h2)
  · simp only [List.cons_append, List.cons.injEq] at heq
    obtain ⟨e1, e2, e3⟩ := heq
    have ht : t = [] := (List.append_eq_nil.mp e3.symm).1
    subst ht
    rw [← e1, ← e2] at h1
    exact Or.inl h1

/-- No `appended u` event occurs anywhere after a `marked u` event:
the log never contains `[marked u, appended u d]` as a sublist. -/
def noAppendAfterMark (l : List Event) : Prop :=
  ∀ u d, ¬ List.Sublist [Event.marked u, Event.appended u d] l

theorem noAppendAfterMark_of_not_mem {l : List Event}
    (h : ∀ u d, Event.marked u ∈ l → Event.appended u d ∉ l) :
    noAppendAfterMark l := by
  intro u d hsub
  have hsubset := hsub.subset
  exact h u d (hsubset (by simp)) (hsubset (by simp))

theorem noAppendAfterMark_append {l ext : List Event}
    (h : noAppendAfterMark l)
    (hm : ∀ u, Event.marked u ∈ l → ∀ d, Event.appended u d ∉ ext)
    (hext : noAppendAfterMark ext) : noAppendAfterMark (l ++ ext) := by
  intro u d hsub
  rcases pair_sublist_append hsub with h1 | h1 | ⟨h1, h2⟩
  · exact h u d h1
  · exact hext u d h1
  · exact hm u h1 d h2

/-- The marked-before-enqueue invariant: the seen set is exactly the
marked URLs, and no URL is appended after it was marked. -/
theorem mark_inv_preserved (cfg : CrawlConfig) (web : String → FetchOutcome)
    (sd : List Char) :
    ∀ s s2, crawlStep cfg web sd s = some s2 →
      (noAppendAfterMark s.log ∧ ∀ u, Event.marked u ∈ s.log ↔ u ∈ s.seen) →
      (noAppendAfterMark s2.log ∧ ∀ u, Event.marked u ∈ s2.log ↔ u ∈ s2.seen) := by
  intro s s2 hstep hinv
  obtain ⟨hno, hiff⟩ := hinv
  obtain ⟨url, depth, rest, hq, hlt, hcase⟩ :=
    crawlStep_characterization cfg web sd s s2 hstep
  rcases hcase with ⟨hseen, rfl⟩ | ⟨hseen, ev, hev, rfl⟩ |
    ⟨hseen, ok, ws, pairs, saw, k, ext, rfl, hext⟩
  · refine ⟨noAppendAfterMark_append hno (by simp)
      (noAppendAfterMark_of_not_mem (by simp)), ?_⟩
    intro u
    simp [List.mem_append, hiff u]
  · have hnoapp : ∀ u d, Event.appended u d ∉ [Event.marked url, ev] := by
      intro u d hu
      rcases hev with rfl | rfl | rfl <;> simp at hu
    refine ⟨noAppendAfterMark_append hno (fun u _ d => hnoapp u d)
      (noAppendAfterMark_of_not_mem (fun u d _ => hnoapp u d)), ?_⟩
    intro u
    rcases hev with rfl | rfl | rfl <;> simp [List.mem_append, hiff u]
  · have hextApp : ∀ u d, Event.appended u d ∈ ext → u ∉ s.seen ++ [url] := by
      intro u d hu
      rcases hext _ hu with ⟨v, d2, heq, hv⟩ | ⟨v, heq⟩
      · injection heq with e1 e2
        subst e1
        exact hv
      · exact absurd heq (by simp)
    have hextMark : ∀ u, Event.marked u ∉ ext := by
      intro u hu
      rcases hext _ hu with ⟨v, d2, heq, hv⟩ | ⟨v, heq⟩ <;> simp at heq
    refine ⟨?_, ?_⟩
    · apply noAppendAfterMark_append hno
      · intro u hu d hin
        have husen : u ∈ s.seen := (hiff u).mp hu
        rcases List.mem_cons.mp hin with h1 | hin
        · simp at h1
        rcases List.mem_cons.mp hin with h1 | hin
        · simp at h1
        exact hextApp u d hin (List.mem_append_left _ husen)
      · apply noAppendAfterMark_of_not_mem
        intro u d hmark happ
        have hu : u = url := by
          rcases List.mem_cons.mp hmark with h1 | hmark
          · simpa using h1
          rcases List.mem_cons.mp hmark with h1 | hmark
          · simp at h1
          · exact absurd hmark (hextMark u)
        subst hu
        have hin : Event.appended u d ∈ ext := by
          rcases List.mem_cons.mp happ with h1 | happ
          · simp at h1
          rcases List.mem_cons.mp happ with h1 | happ
          · simp at h1
          · exact happ
        exact hextApp u d hin (List.mem_append_right _ (by simp))
    · intro u
      have hne : Event.marked u ∈ ext ↔ False :=
        iff_false_intro (hextMark u)
      simp [List.mem_append, hiff u, hne]

/-- C3 as stated is false: in the A/B/C scenario (A lists B twice), the
URL `http://s/b` is appended to the frontier twice during the crawl. -/
theorem claim_C3_counterexample : appendCount abcRun.log "http://s/b" = 2 := by
  decide

/-- C3, amended: a URL is appended to the frontier only while it has not
yet been marked seen — once a URL is marked (at its first dequeue), no
`appended` event for it occurs later in the log; before that, a URL may
be appended more than once. -/
theorem claim_C3_no_append_after_mark (cfg : CrawlConfig)
    (web : String → FetchOutcome) (sd : List Char) (fuel : Nat) (start : String) :
    noAppendAfterMark (runLoop cfg web sd fuel (initCrawlState start)).log :=
  (runLoop_inv
    (fun st => noAppendAfterMark st.log ∧
      ∀ u, Event.marked u ∈ st.log ↔ u ∈ st.seen)
    (mark_inv_preserved cfg web sd) fuel (initCrawlState start)
    (by exact ⟨fun u d hsub => by simp [initCrawlState] at hsub, by
      simp [initCrawlState]⟩)).1

/-- Did the log record a depth, domain or robots rejection of `u`
(which in the source happens only after `u` was added to `seen`)? -/
def skipEvents (u : String) (l : List Event) : Prop :=
  (∃ d, Event.skippedDepth u d ∈ l) ∨ Event.skippedDomain u ∈ l ∨
    Event.skippedRobots u ∈ l

/-- The skip/fetch exclusion invariant: depth/domain/robots-skipped URLs
and fetched URLs are all in `seen`, and no URL is both skipped by one of
those gates and fetched. -/
theorem skip_inv_preserved (cfg : CrawlConfig) (web : String → FetchOutcome)
    (sd : List Char) :
    ∀ s s2, crawlStep cfg web sd s = some s2 →
      ((∀ u, skipEvents u s.log → u ∈ s.seen) ∧
       (∀ u b, Event.fetchedPage u b ∈ s.log → u ∈ s.seen) ∧
       (∀ u, skipEvents u s.log → ∀ b, Event.fetchedPage u b ∉ s.log)) →
      ((∀ u, skipEvents u s2.log → u ∈ s2.seen) ∧
       (∀ u b, Event.fetchedPage u b ∈ s2.log → u ∈ s2.seen) ∧
       (∀ u, skipEvents u s2.log → ∀ b, Event.fetchedPage u b ∉ s2.log)) := by
  intro s s2 hstep hinv
  obtain ⟨hskip, hfetch, hexc⟩ := hinv
  obtain ⟨url, depth, rest, hq, hlt, hcase⟩ :=
    crawlStep_characterization cfg web sd s s2 hstep
  rcases hcase with ⟨hseen, rfl⟩ | ⟨hseen, ev, hev, rfl⟩ |
    ⟨hseen, ok, ws, pairs, saw, k, ext, rfl, hext⟩
  · have hsk : ∀ u, skipEvents u (s.log ++ [Event.skippedSeen url]) → skipEvents u s.log := by
      intro u hu
      rcases hu with ⟨d, hd⟩ | hd | hd
      · rcases List.mem_append.mp hd with hd | hd
        · exact Or.inl ⟨d, hd⟩
        · simp at hd
      · rcases List.mem_append.mp hd with hd | hd
        · exact Or.inr (Or.inl hd)
        · simp at hd
      · rcases List.mem_append.mp hd with hd | hd
        · exact Or.inr (Or.inr hd)
        · simp at hd
    refine ⟨fun u hu => hskip u (hsk u hu), fun u b hu => ?_, fun u hu b hb => ?_⟩
    · rcases List.mem_append.mp hu with hu | hu
      · exact hfetch u b hu
      · simp at hu
    · rcases List.mem_append.mp hb with hb | hb
      · exact hexc u (hsk u hu) b hb
      · simp at hb
  · have hsk : ∀ u, skipEvents u (s.log ++ [Event.marked url, ev]) →
        skipEvents u s.log ∨ u = url := by
      intro u hu
      rcases hu with ⟨d, hd⟩ | hd | hd <;> rcases List.mem_append.mp hd with hd | hd
      · exact Or.inl (Or.inl ⟨d, hd⟩)
      · rcases hev with rfl | rfl | rfl <;> simp at hd <;> exact Or.inr hd.1
      · exact Or.inl (Or.inr (Or.inl hd))
      · rcases hev with rfl | rfl | rfl <;> simp at hd <;> exact Or.inr hd
      · exact Or.inl (Or.inr (Or.inr hd))
      · rcases hev with rfl | rfl | rfl <;> simp at hd <;> exact Or.inr hd
    have hft : ∀ u b, Event.fetchedPage u b ∈ s.log ++ [Event.marked url, ev] →
        Event.fetchedPage u b ∈ s.log := by
      intro u b hu
      rcases List.mem_append.mp hu with hu | hu
      · exact hu
      · rcases hev with rfl | rfl | rfl <;> simp at hu
    refine ⟨fun u hu => ?_, fun u b hu => ?_, fun u hu b hb => ?_⟩
    · rcases hsk u hu with hu | rfl
      · exact List.mem_append_left _ (hskip u hu)
      · exact List.mem_append_right _ (by simp)
    · exact List.mem_append_left _ (hfetch u b (hft u b hu))
    · have hb2 := hft u b hb
      rcases hsk u hu with hu | rfl
      · exact hexc u hu b hb2
      · exact hseen (hfetch u b hb2)
  · have hextSkip : ∀ u, skipEvents u ext → False := by
      intro u hu
      rcases hu with ⟨d, hd⟩ | hd | hd <;>
        rcases hext _ hd with ⟨v, d2, heq, hv⟩ | ⟨v, heq⟩ <;> simp at heq
    have hextFetch : ∀ u b, Event.fetchedPage u b ∉ ext := by
      intro u b hd
      rcases hext _ hd with ⟨v, d2, heq, hv⟩ | ⟨v, heq⟩ <;> simp at heq
    have hsk : ∀ u, skipEvents u (s.log ++ Event.marked url ::
        Event.fetchedPage url ok :: ext) → skipEvents u s.log := by
      intro u hu
      rcases hu with ⟨d, hd⟩ | hd | hd <;> rcases List.mem_append.mp hd with hd | hd
      · exact Or.inl ⟨d, hd⟩
      · rcases List.mem_cons.mp hd with h1 | hd
        · simp at h1
        rcases List.mem_cons.mp hd with h1 | hd
        · simp at h1
        · exact absurd (Or.inl ⟨d, hd⟩) (hextSkip u)
      · exact Or.inr (Or.inl hd)
      · rcases List.mem_cons.mp hd with h1 | hd
        · simp at h1
        rcases List.mem_cons.mp hd with h1 | hd
        · simp at h1
        · exact absurd (Or.inr (Or.inl hd)) (hextSkip u)
      · exact Or.inr (Or.inr hd)
      · rcases List.mem_cons.mp hd with h1 | hd
        · simp at h1
        rcases List.mem_cons.mp hd with h1 | hd
        · simp at h1
        · exact absurd (Or.inr (Or.inr hd)) (hextSkip u)
    have hft : ∀ u b, Event.fetchedPage u b ∈ s.log ++ Event.marked url ::
        Event.fetchedPage url ok :: ext →
        Event.fetchedPage u b ∈ s.log ∨ u = url := by
      intro u b hu
      rcases List.mem_append.mp hu with hu | hu
      · exact Or.inl hu
      · rcases List.mem_cons.mp hu with h1 | hu
        · simp at h1
        rcases List.mem_cons.mp hu with h1 | hu
        · simp at h1
          exact Or.inr h1.1
        · exact absurd hu (hextFetch u b)
    refine ⟨fun u hu => List.mem_append_left _ (hskip u (hsk u hu)),
            fun u b hu => ?_, fun u hu b hb => ?_⟩
    · rcases hft u b hu with hu | rfl
      · exact List.mem_append_left _ (hfetch u b hu)
      · exact List.mem_append_right _ (by simp)
    · rcases hft u b hb with hb2 | rfl
      · exact hexc u (hsk u hu) b hb2
      · exact hseen (hskip u (hsk u hu))

/-- C9: a dequeued URL is marked seen before the depth / same-domain /
robots gates run, so a URL whose first dequeue is rejected by one of
those gates is never fetched anywhere in the crawl — not before (a
fetched URL is seen, and a seen URL is skipped as seen, not by a gate)
and not after (it is seen from then on). -/
theorem claim_C9_skip_never_fetched (cfg : CrawlConfig)
    (web : String → FetchOutcome) (sd : List Char) (fuel : Nat)
    (start u : String)
    (h : skipEvents u (runLoop cfg web sd fuel (initCrawlState start)).log) :
    ∀ b, Event.fetchedPage u b ∉ (runLoop cfg web sd fuel (initCrawlState start)).log :=
  (runLoop_inv
    (fun st => (∀ v, skipEvents v st.log → v ∈ st.seen) ∧
      (∀ v b, Event.fetchedPage v b ∈ st.log → v ∈ st.seen) ∧
      (∀ v, skipEvents v st.log → ∀ b, Event.fetchedPage v b ∉ st.log))
    (skip_inv_preserved cfg web sd) fuel (initCrawlState start)
    (by
      refine ⟨fun v hv => ?_, by simp [initCrawlState], by
        intro v hv b hb
        simp [initCrawlState] at hb⟩
      rcases hv with ⟨d, hd⟩ | hd | hd <;> simp [initCrawlState] at hd)).2.2 u h

/-- A depth-0 configuration for the C9 witness crawl. -/
def depth0Cfg : CrawlConfig := ⟨10, 0, true, false, none, "t0"⟩

/-- The depth-0 run over the A/B/C web: B is discovered at depth 1 and
rejected by the depth gate. -/
def depth0Run : CrawlState :=
  runLoop depth0Cfg abcWeb (netlocOf "http://s/") 20 (initCrawlState "http://s/")

/-- Witness for `claim_C9_skip_never_fetched`: in the depth-0 run, B is
depth-skipped and therefore never fetched. -/
theorem claim_C9_witness :
    Event.fetchedPage "http://s/b" true ∉ depth0Run.log :=
  claim_C9_skip_never_fetched depth0Cfg abcWeb (netlocOf "http://s/") 20
    "http://s/" "http://s/b" (Or.inl ⟨1, by decide⟩) true

/-! ### Split characterizations for the path-mapping and round-trip
proofs -/

theorem splitAtFirst_eq_none {c : Char} :
    ∀ {l : List Char}, splitAtFirst c l = none ↔ c ∉ l := by
  intro l
  induction l with
  | nil => simp [splitAtFirst]
  | cons x xs ih =>
    simp only [splitAtFirst]
    by_cases hx : x = c
    · subst hx
      simp
    · rw [if_neg hx]
      constructor
      · intro h hmem
        rcases hsp : splitAtFirst c xs with _ | p
        · rcases List.mem_cons.mp hmem with h2 | h2
          · exact hx h2.symm
          · exact (ih.mp hsp) h2
        · rw [hsp] at h
          simp at h
      · intro h
        have hxs : c ∉ xs := fun hm => h (List.mem_cons_of_mem _ hm)
        rw [ih.mpr hxs]
        rfl

theorem splitAtFirst_eq_some {c : Char} :
    ∀ {l a b : List Char}, splitAtFirst c l = some (a, b) ↔ (l = a ++ c :: b ∧ c ∉ a) := by
  intro l
  induction l with
  | nil =>
    intro a b
    simp only [splitAtFirst]
    constructor
    · intro h
      exact absurd h (by simp)
    · intro ⟨h, _⟩
      exact absurd h (by simp)
  | cons x xs ih =>
    intro a b
    simp only [splitAtFirst]
    by_cases hx : x = c
    · subst hx
      simp only [if_pos rfl]
      constructor
      · intro h
        have h2 : ([] : List Char) = a ∧ xs = b := by
          have := Option.some.inj h
          exact ⟨congrArg Prod.fst this, congrArg Prod.snd this⟩
        rw [← h2.1, ← h2.2]
        simp
      · intro ⟨h1, h2⟩
        rcases a with _ | ⟨y, a⟩
        · simp only [List.nil_append, List.cons.injEq, true_and] at h1
          simp [h1]
        · simp only [List.cons_append, List.cons.injEq] at h1
          exact absurd (h1.1 ▸ List.mem_cons_self y a) h2
    · rw [if_neg hx]
      constructor
      · intro h
        rcases hmap : splitAtFirst c xs with _ | ⟨a2, b2⟩
        · rw [hmap] at h
          simp at h
        · rw [hmap] at h
          simp only [Option.map_some', Option.some.injEq] at h
          obtain ⟨ha, hb⟩ := ih.mp hmap
          have h2 : x :: a2 = a ∧ b2 = b := by
            have h3 := h
            exact ⟨congrArg Prod.fst h3, congrArg Prod.snd h3⟩
          rw [← h2.1, ← h2.2]
          refine ⟨by rw [ha]; simp, ?_⟩
          intro hmem
          rcases List.mem_cons.mp hmem with h4 | h4
          · exact hx h4.symm
          · exact hb h4
      · intro ⟨h1, h2⟩
        rcases a with _ | ⟨y, a⟩
        · simp only [List.nil_append, List.cons.injEq] at h1
          exact absurd h1.1 hx
        · simp only [List.cons_append, List.cons.injEq] at h1
          obtain ⟨hxy, hrest⟩ := h1
          subst hxy
          have hca : c ∉ a := fun hmem => h2 (List.mem_cons_of_mem _ hmem)
          rw [ih.mpr ⟨hrest, hca⟩]
          rfl

theorem splitAtFirst_sep {c : Char} {a b : List Char} (h : c ∉ a) :
    splitAtFirst c (a ++ c :: b) = some (a, b) :=
  splitAtFirst_eq_some.mpr ⟨rfl, h⟩

theorem splitAtLast_eq_some {c : Char} {l a b : List Char} :
    splitAtLast c l = some (a, b) ↔ (l = a ++ c :: b ∧ c ∉ b) := by
  unfold splitAtLast
  constructor
  · intro h
    rcases hmap : splitAtFirst c l.reverse with _ | ⟨p1, p2⟩
    · rw [hmap] at h
      simp at h
    · rw [hmap] at h
      simp only [Option.map_some', Option.some.injEq] at h
      obtain ⟨hrev, hnot⟩ := splitAtFirst_eq_some.mp hmap
      have h2 : p2.reverse = a ∧ p1.reverse = b := by
        exact ⟨congrArg Prod.fst h, congrArg Prod.snd h⟩
      rw [← h2.1, ← h2.2]
      constructor
      · have := congrArg List.reverse hrev
        simpa [List.reverse_append] using this
      · simpa using hnot
  · intro ⟨h1, h2⟩
    have hrev : l.reverse = b.reverse ++ c :: a.reverse := by
      rw [h1]
      simp [List.reverse_append]
    rw [splitAtFirst_eq_some.mpr ⟨hrev, by simpa using h2⟩]
    simp

theorem splitOnChar_not_mem {c : Char} :
    ∀ {l : List Char}, c ∉ l → splitOnChar c l = [l] := by
  intro l
  induction l with
  | nil => intro _; rfl
  | cons x xs ih =>
    intro h
    have hx : ¬ x = c := fun he => h (he ▸ List.mem_cons_self x xs)
    have hxs : c ∉ xs := fun hm => h (List.mem_cons_of_mem _ hm)
    simp only [splitOnChar, if_neg hx, ih hxs]

theorem splitOnChar_sep {c : Char} :
    ∀ {a b : List Char}, c ∉ a →
      splitOnChar c (a ++ c :: b) = a :: splitOnChar c b := by
  intro a
  induction a with
  | nil =>
    intro b _
    simp [splitOnChar]
  | cons x a ih =>
    intro b h
    have hx : ¬ x = c := fun he => h (he ▸ List.mem_cons_self x a)
    have ha : c ∉ a := fun hm => h (List.mem_cons_of_mem _ hm)
    have hrec := ih (b := b) ha
    simp only [List.cons_append, splitOnChar, if_neg hx, List.append_eq]
    rw [hrec]

/-- `splitOnChar` never returns the empty list. -/
theorem splitOnChar_ne_nil {c : Char} : ∀ {l : List Char}, splitOnChar c l ≠ [] := by
  intro l
  induction l with
  | nil => simp [splitOnChar]
  | cons x xs ih =>
    simp only [splitOnChar]
    by_cases hx : x = c
    · simp [hx]
    · rw [if_neg hx]
      rcases h : splitOnChar c xs with _ | ⟨p, t⟩
      · simp
      · simp

theorem splitOnChar_joinSlash :
    ∀ {segs : List (List Char)}, segs ≠ [] → (∀ s ∈ segs, '/' ∉ s) →
      splitOnChar '/' (joinSlash segs) = segs := by
  intro segs
  induction segs with
  | nil => intro h; exact absurd rfl h
  | cons s rest ih =>
    intro _ hs
    rcases rest with _ | ⟨s2, rest⟩
    · simp only [joinSlash]
      exact splitOnChar_not_mem (hs s (by simp))
    · have hrec := ih (by simp) (fun x hx => hs x (List.mem_cons_of_mem _ hx))
      simp only [joinSlash] at hrec ⊢
      rw [splitOnChar_sep (hs s (by simp)), hrec]

theorem splitOnChar_joinSlash_trailing :
    ∀ {segs : List (List Char)}, segs ≠ [] → (∀ s ∈ segs, '/' ∉ s) →
      splitOnChar '/' (joinSlash segs ++ ['/']) = segs ++ [[]] := by
  intro segs
  induction segs with
  | nil => intro h; exact absurd rfl h
  | cons s rest ih =>
    intro _ hs
    rcases rest with _ | ⟨s2, rest⟩
    · simp only [joinSlash]
      have : s ++ ['/'] = s ++ '/' :: [] := rfl
      rw [this, splitOnChar_sep (hs s (by simp))]
      rfl
    · have hrec := ih (by simp) (fun x hx => hs x (List.mem_cons_of_mem _ hx))
      simp only [joinSlash] at hrec ⊢
      have hassoc : (s ++ '/' :: joinSlash (s2 :: rest)) ++ ['/']
          = s ++ '/' :: (joinSlash (s2 :: rest) ++ ['/']) := by simp
      rw [hassoc, splitOnChar_sep (hs s (by simp)), hrec]
      rfl

theorem joinSlash_cons_head (c0 : Char) (s2 : List Char) (rest : List (List Char)) :
    ∃ t, joinSlash ((c0 :: s2) :: rest) = c0 :: t := by
  rcases rest with _ | ⟨r, rs⟩
  · exact ⟨s2, rfl⟩
  · exact ⟨s2 ++ '/' :: joinSlash (r :: rs), rfl⟩

/-- On a canonical absolute path (nonempty slash-separated segments,
none empty or `.`; optional trailing slash), `PurePosixPath`
normalization is the identity up to the trailing slash. -/
theorem relpath_canonical_core {segs : List (List Char)} (hne : segs ≠ [])
    (hs : ∀ s ∈ segs, s ≠ [] ∧ s ≠ ['.'] ∧ '/' ∉ s) (path : List Char)
    (hpath : path = '/' :: joinSlash segs ∨ path = '/' :: (joinSlash segs ++ ['/'])) :
    posixParts path = segs ∧ posixStr path = '/' :: joinSlash segs ∧
    posixStr path ≠ ['/'] ∧
    (posixStr path).dropWhile (fun c => c = '/') = joinSlash segs := by
  obtain ⟨s0, rest, rfl⟩ : ∃ s0 rest, segs = s0 :: rest := by
    rcases segs with _ | ⟨s0, rest⟩
    · exact absurd rfl hne
    · exact ⟨s0, rest, rfl⟩
  obtain ⟨c0, s0t, rfl⟩ : ∃ c0 s0t, s0 = c0 :: s0t := by
    rcases hs0 : s0 with _ | ⟨c0, s0t⟩
    · exact absurd hs0 (hs s0 (by simp)).1
    · exact ⟨c0, s0t, rfl⟩
  have hc0 : c0 ≠ '/' := by
    intro h
    exact (hs (c0 :: s0t) (by simp)).2.2 (h ▸ List.mem_cons_self c0 s0t)
  obtain ⟨jt, hj⟩ := joinSlash_cons_head c0 s0t rest
  have hslash : ∀ s ∈ (c0 :: s0t) :: rest, '/' ∉ s := fun s hsm => (hs s hsm).2.2
  have hfilter : ∀ l : List (List Char), (∀ a ∈ l, a ≠ [] ∧ a ≠ ['.']) →
      l.filter (fun p => decide (p ≠ []) && decide (p ≠ ['.'])) = l := by
    intro l hl
    exact List.filter_eq_self.mpr (fun a ha => by
      have h2 := hl a ha
      simp [h2.1, h2.2])
  have hparts : posixParts path = (c0 :: s0t) :: rest := by
    unfold posixParts
    rcases hpath with rfl | rfl
    · have h1 : splitOnChar '/' ('/' :: joinSlash ((c0 :: s0t) :: rest))
          = [] :: splitOnChar '/' (joinSlash ((c0 :: s0t) :: rest)) := by
        simp [splitOnChar]
      rw [h1, splitOnChar_joinSlash hne hslash, List.filter_cons]
      have hp0 : (decide (([] : List Char) ≠ []) && decide (([] : List Char) ≠ ['.'])) = false := by
        decide
      rw [hp0]
      simp only [Bool.false_eq_true, if_false]
      exact hfilter _ (fun a ha => ⟨(hs a ha).1, (hs a ha).2.1⟩)
    · have h1 : splitOnChar '/' ('/' :: (joinSlash ((c0 :: s0t) :: rest) ++ ['/']))
          = [] :: splitOnChar '/' (joinSlash ((c0 :: s0t) :: rest) ++ ['/']) := by
        simp [splitOnChar]
      rw [h1, splitOnChar_joinSlash_trailing hne hslash, List.filter_cons]
      have hp0 : (decide (([] : List Char) ≠ []) && decide (([] : List Char) ≠ ['.'])) = false := by
        decide
      rw [hp0]
      simp only [Bool.false_eq_true, if_false]
      rw [List.filter_append, hfilter _ (fun a ha => ⟨(hs a ha).1, (hs a ha).2.1⟩)]
      have hp1 : List.filter (fun p => decide (p ≠ []) && decide (p ≠ ['.']))
          [([] : List Char)] = [] := by
        decide
      rw [hp1, List.append_nil]
  have hroot : posixRoot path = ['/'] := by
    unfold posixRoot
    rcases hpath with rfl | rfl
    · rw [hj]
      simp [List.take, hc0]
    · rw [hj]
      simp [List.take, hc0]
  have hstr : posixStr path = '/' :: joinSlash ((c0 :: s0t) :: rest) := by
    unfold posixStr
    rw [hparts, hroot]
    simp
  refine ⟨hparts, hstr, ?_, ?_⟩
  · rw [hstr, hj]
    simp
  · rw [hstr, hj]
    simp only [List.dropWhile]
    simp [hc0]

/-- A URL whose parsed path is empty or `/` maps to `index.html`. -/
theorem relpath_root {u : String} {p : ParseResult}
    (hp : urlparseL [] u.data = Except.ok p)
    (hroot : p.path = [] ∨ p.path = ['/']) :
    url_to_site_relpath u = Except.ok "index.html" := by
  have hpath : (if p.path = [] then ['/'] else p.path) = ['/'] := by
    rcases hroot with h | h <;> simp [h]
  have hps : posixStr ['/'] = ['/'] := by decide
  simp only [url_to_site_relpath, hp, hpath, hps, if_pos]

/-- C7 as stated is false: the code maps a URL through
`PurePosixPath`, which collapses duplicate slashes, so a URL whose last
path segment has an extension is not mapped verbatim — e.g.
`https://example.com/a//b.html` maps to `a/b.html`, not `a//b.html`. -/
theorem claim_C7_counterexample :
    url_to_site_relpath "https://example.com/a//b.html" = Except.ok "a/b.html" ∧
    ("a/b.html" : String) ≠ "a//b.html" := by
  exact ⟨by decide, by decide⟩

/-- C7, amended: the root path maps to `index.html`; a URL whose path is
canonical (nonempty slash-separated segments, none empty or `.`, with or
without a trailing slash) maps to the path with the leading slash
stripped (and the trailing slash dropped) when the last segment has an
extension, and to that plus `/index.html` otherwise; in particular the
three mappings quoted in the spec hold. -/
theorem claim_C7_relpath :
    (∀ (u : String) (p : ParseResult), urlparseL [] u.data = Except.ok p →
      (p.path = [] ∨ p.path = ['/']) →
      url_to_site_relpath u = Except.ok "index.html") ∧
    (∀ (u : String) (p : ParseResult) (segs : List (List Char)),
      urlparseL [] u.data = Except.ok p →
      segs ≠ [] → (∀ s ∈ segs, s ≠ [] ∧ s ≠ ['.'] ∧ '/' ∉ s) →
      (p.path = '/' :: joinSlash segs ∨ p.path = '/' :: (joinSlash segs ++ ['/'])) →
      (nameSuffix (segs.getLastD []) ≠ [] →
        url_to_site_relpath u = Except.ok (String.mk (joinSlash segs))) ∧
      (nameSuffix (segs.getLastD []) = [] →
        url_to_site_relpath u = Except.ok (String.mk (joinSlash segs ++ "/index.html".data)))) ∧
    url_to_site_relpath "https://example.com/" = Except.ok "index.html" ∧
    url_to_site_relpath "https://example.com/about-us" = Except.ok "about-us/index.html" ∧
    url_to_site_relpath "https://example.com/about-us/" = Except.ok "about-us/index.html" ∧
    url_to_site_relpath "https://example.com/a/b/c.html" = Except.ok "a/b/c.html" := by
  refine ⟨fun u p hp hroot => relpath_root hp hroot, ?_,
    by decide, by decide, by decide, by decide⟩
  · intro u p segs hp hne hsegs hpath
    have hnonnil : p.path ≠ [] := by
      rcases hpath with h | h <;> simp [h]
    obtain ⟨hparts, hstr, hnotroot, hdrop⟩ :=
      relpath_canonical_core hne hsegs p.path hpath
    have hsuf : posixSuffix p.path = nameSuffix (segs.getLastD []) := by
      unfold posixSuffix posixName
      rw [hparts]
    constructor
    · intro hsfx
      simp only [url_to_site_relpath, hp, if_neg hnonnil]
      rw [if_neg hnotroot]
      rw [if_pos (by rw [hsuf]; exact hsfx)]
      rw [hdrop]
    · intro hsfx
      simp only [url_to_site_relpath, hp, if_neg hnonnil]
      rw [if_neg hnotroot]
      rw [if_neg (by rw [hsuf, hsfx]; simp)]
      rw [hdrop]

/-- Witness for `claim_C7_relpath` at `https://example.com/a/b.html`. -/
theorem claim_C7_witness :
    url_to_site_relpath "https://example.com/a/b.html" = Except.ok "a/b.html" :=
  have h := (claim_C7_relpath.2.1 "https://example.com/a/b.html"
    ⟨"https".data, "example.com".data, "/a/b.html".data, [], [], []⟩
    [['a'], "b.html".data]
    (by decide) (by decide) (by decide) (Or.inl (by decide))).1 (by decide)
  by
    rw [h]
    decide

/-- C10: `SiteBuilder.build` writes the root redirect after all mirrored
page writes and computes its target with `url_to_site_relpath`; when the
normalized start URL has the root path, the redirect's target is
`index.html` — the very path the redirect file itself occupies, so it
overwrites any mirrored root page previously written at `index.html` and
redirects to its own path. -/
theorem claim_C10_root_redirect (pages : List StoredPage) (assets : List String)
    (su : String) (evs : List BuildEvent) (s : String) (p : ParseResult)
    (hb : buildWrites pages assets (some su) = Except.ok evs)
    (hn : normalize_url su none = Except.ok (some s))
    (hp : urlparseL [] s.data = Except.ok p)
    (hroot : p.path = [] ∨ p.path = ['/']) :
    url_to_site_relpath s = Except.ok "index.html" ∧
    ∃ l, evs = l ++ [BuildEvent.rootIndex "index.html", BuildEvent.summaryWrite] := by
  have hrel : url_to_site_relpath s = Except.ok "index.html" := relpath_root hp hroot
  refine ⟨hrel, ?_⟩
  have hri : rootIndexEvents (some su) = Except.ok [BuildEvent.rootIndex "index.html"] := by
    show (match normalize_url su none with
      | .error e => (Except.error e : Except String (List BuildEvent))
      | .ok none => Except.ok []
      | .ok (some sv) =>
        match url_to_site_relpath sv with
        | .error e => Except.error e
        | .ok target => Except.ok [BuildEvent.rootIndex target]) = _
    rw [hn]
    show (match url_to_site_relpath s with
      | .error e => (Except.error e : Except String (List BuildEvent))
      | .ok target => Except.ok [BuildEvent.rootIndex target]) = _
    rw [hrel]
  unfold buildWrites at hb
  by_cases hpg : pages = []
  · rw [if_pos hpg] at hb
    exact absurd hb (by simp)
  · rw [if_neg hpg] at hb
    rcases hm : pages.foldlM urlMapStep [] with e | urlMap
    · rw [hm] at hb
      have hb2 : (Except.error e : Except String (List BuildEvent)) = Except.ok evs := hb
      simp at hb2
    · rw [hm] at hb
      have hb2 : (match pages.foldlM (pageWriteStep urlMap) [] with
          | Except.error e => (Except.error e : Except String (List BuildEvent))
          | Except.ok pageEvents =>
            match rootIndexEvents (some su) with
            | Except.error e => Except.error e
            | Except.ok rootEvents =>
              Except.ok (assets.map BuildEvent.assetCopied ++ pageEvents ++ rootEvents ++
                [BuildEvent.summaryWrite])) = Except.ok evs := hb
      rcases hpe : pages.foldlM (pageWriteStep urlMap) [] with e | pageEvents
      · rw [hpe] at hb2
        have hb3 : (Except.error e : Except String (List BuildEvent)) = Except.ok evs := hb2
        simp at hb3
      · rw [hpe] at hb2
        have hb3 : (match rootIndexEvents (some su) with
            | Except.error e => (Except.error e : Except String (List BuildEvent))
            | Except.ok rootEvents =>
              Except.ok (assets.map BuildEvent.assetCopied ++ pageEvents ++ rootEvents ++
                [BuildEvent.summaryWrite])) = Except.ok evs := hb2
        rw [hri] at hb3
        have hb4 : Except.ok (assets.map BuildEvent.assetCopied ++ pageEvents ++
            [BuildEvent.rootIndex "index.html"] ++ [BuildEvent.summaryWrite])
            = Except.ok evs := hb3
        have hevs := (Except.ok.injEq _ _).mp hb4
        refine ⟨assets.map BuildEvent.assetCopied ++ pageEvents, ?_⟩
        rw [← hevs]
        simp

/-- Witness for `claim_C10_root_redirect`: a one-page build rooted at
`http://s/`. -/
theorem claim_C10_witness :
    url_to_site_relpath "http://s/" = Except.ok "index.html" ∧
    ∃ l, [BuildEvent.pageWrite "index.html", BuildEvent.rootIndex "index.html",
          BuildEvent.summaryWrite]
      = l ++ [BuildEvent.rootIndex "index.html", BuildEvent.summaryWrite] :=
  claim_C10_root_redirect [⟨"http://s/", "http://s/", "id1", true⟩] []
    "http://s/"
    [BuildEvent.pageWrite "index.html", BuildEvent.rootIndex "index.html",
     BuildEvent.summaryWrite]
    "http://s/" ⟨"http".data, "s".data, ['/'], [], [], []⟩
    (by decide) (by decide) (by decide) (Or.inr rfl)

/-! ### `SequenceMatcher` on two equal sequences

For C6 the two compared token sequences are identical.  The proof shows
`find_longest_match` then returns the whole range: the chain-scanning
main loop can only record diagonal matches (an off-diagonal chain is
dominated by a diagonal chain scanned no later), and the two extension
loops stretch a diagonal match over the entire (identical) range. -/

/-- Does column `j` participate in the chain ending at `(r, j)`:
`j` is a `b2j` position of the row value `t[r]`. -/
def chainCond (t : List String) (r j : Nat) : Prop :=
  j < t.length ∧ t.getD j "" = t.getD r "" ∧ isPopular t (t.getD j "") = false

instance (t : List String) (r j : Nat) : Decidable (chainCond t r j) := by
  unfold chainCond
  infer_instance

/-- The length of the `j2len` chain ending at `(r, j)` when scanning `t`
against itself from row 0 / column 0. -/
def chainLen (t : List String) (r j : Nat) : Nat :=
  if chainCond t r j then
    (if h : r = 0 ∨ j = 0 then 0 else chainLen t (r - 1) (j - 1)) + 1
  else 0
termination_by r
decreasing_by
  have hr : r ≠ 0 := fun hr0 => h (Or.inl hr0)
  omega

theorem chainLen_zero_of_not {t : List String} {r j : Nat}
    (h : ¬ chainCond t r j) : chainLen t r j = 0 := by
  unfold chainLen
  rw [if_neg h]

theorem chainCond_diag {t : List String} {r j m : Nat} (hc : chainCond t r j)
    (hm : m = r ∨ m = j) (hmn : m < t.length) : chainCond t m m := by
  obtain ⟨hj, heq, hpop⟩ := hc
  rcases hm with rfl | rfl
  · exact ⟨hmn, rfl, heq ▸ hpop⟩
  · exact ⟨hj, rfl, hpop⟩

theorem chainLen_le_min {t : List String} :
    ∀ (r j : Nat), chainLen t r j ≤ chainLen t (min r j) (min r j) := by
  intro r
  induction r using Nat.strong_induction_on with
  | _ r ih =>
    intro j
    by_cases hc : chainCond t r j
    · have hmn : min r j < t.length := lt_of_le_of_lt (min_le_right r j) hc.1
      have hcm : chainCond t (min r j) (min r j) := by
        rcases le_total r j with h | h
        · exact chainCond_diag hc (Or.inl (min_eq_left h)) hmn
        · exact chainCond_diag hc (Or.inr (min_eq_right h)) hmn
      by_cases h0 : r = 0 ∨ j = 0
      · have hm0 : min r j = 0 := by omega
        rw [chainLen, if_pos hc, dif_pos h0, hm0, chainLen, if_pos (hm0 ▸ hcm)]
        simp
      · have hr1 : 1 ≤ r := by omega
        have hj1 : 1 ≤ j := by omega
        have hm1 : 1 ≤ min r j := by omega
        have hmm : ¬ (min r j = 0 ∨ min r j = 0) := by omega
        have hmin : min (r - 1) (j - 1) = min r j - 1 := by omega
        have hstep := ih (r - 1) (by omega) (j - 1)
        rw [chainLen, if_pos hc, dif_neg h0]
        conv_rhs => rw [chainLen, if_pos hcm, dif_neg hmm]
        rw [hmin] at hstep
        omega
    · rw [chainLen_zero_of_not hc]
      exact Nat.zero_le _

theorem chainLen_le_succ {t : List String} :
    ∀ (r j : Nat), chainLen t r j ≤ r + 1 := by
  intro r
  induction r using Nat.strong_induction_on with
  | _ r ih =>
    intro j
    by_cases hc : chainCond t r j
    · by_cases h0 : r = 0 ∨ j = 0
      · rw [chainLen, if_pos hc, dif_pos h0]
        omega
      · rw [chainLen, if_pos hc, dif_neg h0]
        have := ih (r - 1) (by omega) (j - 1)
        omega
    · rw [chainLen_zero_of_not hc]
      omega

theorem mem_b2jLookup_iff {t : List String} {r j : Nat} :
    j ∈ b2jLookup t (t.getD r "") ↔ chainCond t r j := by
  unfold b2jLookup
  by_cases hpop : isPopular t (t.getD r "") = true
  · rw [if_pos hpop]
    simp only [List.not_mem_nil, false_iff]
    intro ⟨hj, heq, hp⟩
    rw [heq] at hp
    rw [hpop] at hp
    exact absurd hp (by simp)
  · rw [if_neg hpop]
    simp only [List.mem_filter, List.mem_range, decide_eq_true_eq]
    constructor
    · intro ⟨h1, h2⟩
      exact ⟨h1, h2, h2 ▸ (by simpa using hpop)⟩
    · intro ⟨h1, h2, h3⟩
      exact ⟨h1, h2⟩

theorem b2jLookup_pairwise (t : List String) (v : String) :
    (b2jLookup t v).Pairwise (· < ·) := by
  unfold b2jLookup
  by_cases hpop : isPopular t v = true
  · rw [if_pos hpop]
    exact List.Pairwise.nil
  · rw [if_neg hpop]
    exact (List.pairwise_lt_range _).sublist (List.filter_sublist _)

theorem innerLoop_cons_step (blo bhi r : Nat) (old : Nat → Nat) (j : Nat)
    (js : List Nat) (best : FMatch) (newj : Nat → Nat)
    (h1 : ¬ j < blo) (h2 : ¬ bhi ≤ j) :
    innerLoop blo bhi r old (j :: js) best newj =
      innerLoop blo bhi r old js
        (if best.size < (if j = 0 then 0 else old (j - 1)) + 1 then
          ⟨r + 1 - ((if j = 0 then 0 else old (j - 1)) + 1),
           j + 1 - ((if j = 0 then 0 else old (j - 1)) + 1),
           (if j = 0 then 0 else old (j - 1)) + 1⟩
        else best)
        (fun x => if x = j then (if j = 0 then 0 else old (j - 1)) + 1 else newj x) := by
  simp only [innerLoop, if_neg h1, if_neg h2]

/-- The inner loop of `find_longest_match` on equal sequences keeps the
best match diagonal and in range, dominates every chain scanned so far,
and ends with `j2len` holding exactly the row-`r` chain lengths. -/
theorem innerLoop_equal_spec (t : List String) (r : Nat) (hr : r < t.length)
    (old : Nat → Nat)
    (hold : ∀ x, old x = if r = 0 then 0 else chainLen t (r - 1) x) :
    ∀ (js : List Nat) (best : FMatch) (newj : Nat → Nat),
      (∀ j ∈ js, chainCond t r j) →
      js.Pairwise (· < ·) →
      (∀ j2, chainCond t r j2 → j2 ∉ js → chainLen t r j2 ≤ best.size) →
      best.i = best.j →
      best.i + best.size ≤ r + 1 →
      (∀ r2, r2 < r → ∀ j2, chainLen t r2 j2 ≤ best.size) →
      (∀ x, newj x = if chainCond t r x ∧ x ∉ js then chainLen t r x else 0) →
      (innerLoop 0 t.length r old js best newj).2.i
          = (innerLoop 0 t.length r old js best newj).2.j ∧
      (innerLoop 0 t.length r old js best newj).2.i
          + (innerLoop 0 t.length r old js best newj).2.size ≤ r + 1 ∧
      (∀ r2, r2 ≤ r → ∀ j2, chainLen t r2 j2
          ≤ (innerLoop 0 t.length r old js best newj).2.size) ∧
      (∀ x, (innerLoop 0 t.length r old js best newj).1 x = chainLen t r x) := by
  intro js
  induction js with
  | nil =>
    intro best newj hsub hpair hproc hdiag hbound hdom hnew
    simp only [innerLoop]
    refine ⟨hdiag, hbound, ?_, ?_⟩
    · intro r2 hr2 j2
      rcases Nat.lt_or_ge r2 r with h | h
      · exact hdom r2 h j2
      · have hre : r2 = r := by omega
        subst hre
        by_cases hc : chainCond t r2 j2
        · exact hproc j2 hc (by simp)
        · rw [chainLen_zero_of_not hc]
          omega
    · intro x
      rw [hnew x]
      by_cases hc : chainCond t r x
      · simp [hc]
      · rw [if_neg (by simp [hc]), chainLen_zero_of_not hc]
  | cons j js ih =>
    intro best newj hsub hpair hproc hdiag hbound hdom hnew
    have hcj : chainCond t r j := hsub j (by simp)
    have hjlt : j < t.length := hcj.1
    have hjs : j ∉ js := by
      intro hmem
      have := (List.pairwise_cons.mp hpair).1 j hmem
      omega
    have hk : (if j = 0 then 0 else old (j - 1)) + 1 = chainLen t r j := by
      rw [chainLen, if_pos hcj]
      by_cases hj0 : j = 0
      · rw [if_pos hj0, dif_pos (Or.inr hj0)]
      · rw [if_neg hj0, hold (j - 1)]
        by_cases hr0 : r = 0
        · rw [if_pos hr0, dif_pos (Or.inl hr0)]
        · rw [if_neg hr0, dif_neg (by
            intro h
            rcases h with h | h
            · exact hr0 h
            · exact hj0 (by omega))]
    rw [innerLoop_cons_step 0 t.length r old j js best newj (by omega) (by omega)]
    have hnew2 : ∀ y, (if y = j then (if j = 0 then 0 else old (j - 1)) + 1
        else newj y) = if chainCond t r y ∧ y ∉ js then chainLen t r y else 0 := by
      intro y
      by_cases hey : y = j
      · subst hey
        rw [if_pos rfl, if_pos (show chainCond t r y ∧ y ∉ js from ⟨hcj, hjs⟩)]
        exact hk
      · rw [if_neg hey, hnew y]
        by_cases hcy : chainCond t r y
        · by_cases hys : y ∈ js
          · rw [if_neg (show ¬ (chainCond t r y ∧ y ∉ j :: js) from
                fun h => h.2 (List.mem_cons_of_mem _ hys)),
              if_neg (show ¬ (chainCond t r y ∧ y ∉ js) from fun h => h.2 hys)]
          · rw [if_pos (show chainCond t r y ∧ y ∉ j :: js from
                ⟨hcy, fun hmem => by
                  rcases List.mem_cons.mp hmem with h2 | h2
                  · exact hey h2
                  · exact hys h2⟩),
              if_pos (show chainCond t r y ∧ y ∉ js from ⟨hcy, hys⟩)]
        · rw [if_neg (show ¬ (chainCond t r y ∧ y ∉ j :: js) from fun h => hcy h.1),
            if_neg (show ¬ (chainCond t r y ∧ y ∉ js) from fun h => hcy h.1)]
    by_cases hlt : best.size < (if j = 0 then 0 else old (j - 1)) + 1
    · have hjr : j = r := by
        by_contra hne
        rcases Nat.lt_or_ge j r with hjr | hjr
        · have h1 : chainLen t r j ≤ chainLen t j j := by
            have h0 := chainLen_le_min (t := t) r j
            rwa [min_eq_right (le_of_lt hjr)] at h0
          have h2 : chainLen t j j ≤ best.size := hdom j hjr j
          omega
        · have hjr2 : r < j := by omega
          have h1 : chainLen t r j ≤ chainLen t r r := by
            have h0 := chainLen_le_min (t := t) r j
            rwa [min_eq_left (le_of_lt hjr2)] at h0
          have hcr : chainCond t r r := chainCond_diag hcj (Or.inl rfl) hr
          have hnotin : r ∉ j :: js := by
            intro hmem
            rcases List.mem_cons.mp hmem with h2 | h2
            · omega
            · have := (List.pairwise_cons.mp hpair).1 r h2
              omega
          have h2 : chainLen t r r ≤ best.size := hproc r hcr hnotin
          omega
      have hKle : (if j = 0 then 0 else old (j - 1)) + 1 ≤ r + 1 := by
        rw [hk]
        exact chainLen_le_succ r j
      rw [if_pos hlt]
      apply ih
      · exact fun x hx => hsub x (List.mem_cons_of_mem _ hx)
      · exact (List.pairwise_cons.mp hpair).2
      · intro j2 hc2 hnot2
        show chainLen t r j2 ≤ (if j = 0 then 0 else old (j - 1)) + 1
        by_cases hej : j2 = j
        · subst hej
          omega
        · have hnot : j2 ∉ j :: js := by
            intro hmem
            rcases List.mem_cons.mp hmem with h2 | h2
            · exact hej h2
            · exact hnot2 h2
          have := hproc j2 hc2 hnot
          omega
      · show r + 1 - ((if j = 0 then 0 else old (j - 1)) + 1)
            = j + 1 - ((if j = 0 then 0 else old (j - 1)) + 1)
        rw [hjr]
      · show r + 1 - ((if j = 0 then 0 else old (j - 1)) + 1)
            + ((if j = 0 then 0 else old (j - 1)) + 1) ≤ r + 1
        omega
      · intro r2 hr2 j2
        show chainLen t r2 j2 ≤ (if j = 0 then 0 else old (j - 1)) + 1
        have := hdom r2 hr2 j2
        omega
      · exact hnew2
    · rw [if_neg hlt]
      apply ih
      · exact fun x hx => hsub x (List.mem_cons_of_mem _ hx)
      · exact (List.pairwise_cons.mp hpair).2
      · intro j2 hc2 hnot2
        by_cases hej : j2 = j
        · subst hej
          omega
        · exact hproc j2 hc2 (by
            intro hmem
            rcases List.mem_cons.mp hmem with h2 | h2
            · exact hej h2
            · exact hnot2 h2)
      · exact hdiag
      · exact hbound
      · exact hdom
      · exact hnew2

/-- The outer chain-scanning fold of `find_longest_match` on equal
sequences keeps the best match diagonal and within the scanned range. -/
theorem mainFold_inv (t : List String) :
    ∀ (k r : Nat), r + k = t.length →
    ∀ (st : (Nat → Nat) × FMatch),
      (∀ x, st.1 x = if r = 0 then 0 else chainLen t (r - 1) x) →
      st.2.i = st.2.j →
      st.2.i + st.2.size ≤ r →
      (∀ r2, r2 < r → ∀ j2, chainLen t r2 j2 ≤ st.2.size) →
      ((List.range' r k).foldl (mainLoopStep (b2jLookup t) t 0 t.length) st).2.i
          = ((List.range' r k).foldl (mainLoopStep (b2jLookup t) t 0 t.length) st).2.j ∧
      ((List.range' r k).foldl (mainLoopStep (b2jLookup t) t 0 t.length) st).2.i
          + ((List.range' r k).foldl (mainLoopStep (b2jLookup t) t 0 t.length) st).2.size
          ≤ t.length := by
  intro k
  induction k with
  | zero =>
    intro r hrk st hold hdiag hbound hdom
    simp only [List.range', List.foldl]
    exact ⟨hdiag, by omega⟩
  | succ k ih =>
    intro r hrk st hold hdiag hbound hdom
    have hr : r < t.length := by omega
    have H := innerLoop_equal_spec t r hr st.1 hold
      (b2jLookup t (t.getD r "")) st.2 (fun _ => 0)
      (fun j hj => (mem_b2jLookup_iff).mp hj)
      (b2jLookup_pairwise t (t.getD r ""))
      (fun j2 hc2 hnot2 => absurd ((mem_b2jLookup_iff).mpr hc2) hnot2)
      hdiag (by omega)
      hdom
      (fun x => by
        rw [if_neg (show ¬ (chainCond t r x ∧ x ∉ b2jLookup t (t.getD r "")) from
          fun h => h.2 ((mem_b2jLookup_iff).mpr h.1))])
    rw [show List.range' r (k + 1) = r :: List.range' (r + 1) k from rfl,
      List.foldl_cons]
    exact ih (r + 1) (by omega) (mainLoopStep (b2jLookup t) t 0 t.length st r)
      (fun x => by
        rw [if_neg (show ¬ (r + 1 = 0) from by omega),
          show r + 1 - 1 = r from rfl]
        exact H.2.2.2 x)
      H.1 H.2.1 (fun r2 hr2 j2 => H.2.2.1 r2 (by omega) j2)

theorem mainLoop_equal (t : List String) :
    (mainLoop t t 0 t.length 0 t.length).i = (mainLoop t t 0 t.length 0 t.length).j ∧
    (mainLoop t t 0 t.length 0 t.length).i + (mainLoop t t 0 t.length 0 t.length).size
      ≤ t.length := by
  exact mainFold_inv t t.length 0 (by omega) ((fun _ => 0), ⟨0, 0, 0⟩)
    (fun x => by rw [if_pos rfl])
    rfl
    (Nat.le_refl 0)
    (fun r2 hr2 j2 => absurd hr2 (Nat.not_lt_zero r2))

/-- On equal sequences the backward extension loop walks the diagonal
down as far as the fuel or the left edge allows. -/
theorem extendBack_diag (t : List String) :
    ∀ (f i s : Nat), extendBack t t 0 0 f ⟨i, i, s⟩
      = ⟨i - min f i, i - min f i, s + min f i⟩ := by
  intro f
  induction f with
  | zero =>
    intro i s
    simp [extendBack]
  | succ f ih =>
    intro i s
    simp only [extendBack]
    by_cases hi : 0 < i
    · rw [if_pos (show (0 : Nat) < i ∧ (0 : Nat) < i ∧ True from ⟨hi, hi, trivial⟩)]
      rw [ih (i - 1) (s + 1)]
      have h1 : i - 1 - min f (i - 1) = i - min (f + 1) i := by omega
      have h2 : s + 1 + min f (i - 1) = s + min (f + 1) i := by omega
      rw [h1, h2]
    · rw [if_neg (show ¬ ((0 : Nat) < i ∧ (0 : Nat) < i ∧ True) from fun h => hi h.1)]
      have h0 : min (f + 1) i = 0 := by omega
      rw [h0]
      simp

/-- On equal sequences the forward extension loop walks the diagonal up
as far as the fuel or the right edge allows. -/
theorem extendFwd_diag (t : List String) :
    ∀ (f s : Nat), extendFwd t t t.length t.length f ⟨0, 0, s⟩
      = ⟨0, 0, s + min f (t.length - s)⟩ := by
  intro f
  induction f with
  | zero =>
    intro s
    simp [extendFwd]
  | succ f ih =>
    intro s
    simp only [extendFwd]
    by_cases hs : s < t.length
    · rw [if_pos (show 0 + s < t.length ∧ 0 + s < t.length ∧ True from
            ⟨by omega, by omega, trivial⟩)]
      rw [ih (s + 1)]
      have h2 : s + 1 + min f (t.length - (s + 1)) = s + min (f + 1) (t.length - s) := by
        omega
      rw [h2]
    · rw [if_neg (show ¬ (0 + s < t.length ∧ 0 + s < t.length ∧ True) from
            fun h => hs (by have := h.1; omega))]
      have h0 : min (f + 1) (t.length - s) = 0 := by omega
      rw [h0]
      simp

/-- `find_longest_match` over the full range of two identical sequences
returns the whole range as one block. -/
theorem findLongestMatch_refl (t : List String) :
    findLongestMatch t t 0 t.length 0 t.length = ⟨0, 0, t.length⟩ := by
  have h := mainLoop_equal t
  rcases hm : mainLoop t t 0 t.length 0 t.length with ⟨i, j, s⟩
  rw [hm] at h
  have hd : i = j := h.1
  have hb : i + s ≤ t.length := h.2
  subst hd
  have hEB : extendBack t t 0 0 i ⟨i, i, s⟩ = ⟨0, 0, s + i⟩ := by
    rw [extendBack_diag t i i s, min_self, Nat.sub_self]
  have hEF : extendFwd t t t.length t.length (t.length - (0 + (s + i))) ⟨0, 0, s + i⟩
      = ⟨0, 0, t.length⟩ := by
    rw [extendFwd_diag t (t.length - (0 + (s + i))) (s + i)]
    have hmin : s + i + min (t.length - (0 + (s + i))) (t.length - (s + i))
        = t.length := by omega
    rw [hmin]
  show extendFwd t t t.length t.length
      (t.length - ((extendBack t t 0 0 (mainLoop t t 0 t.length 0 t.length).i
          (mainLoop t t 0 t.length 0 t.length)).i
        + (extendBack t t 0 0 (mainLoop t t 0 t.length 0 t.length).i
            (mainLoop t t 0 t.length 0 t.length)).size))
      (extendBack t t 0 0 (mainLoop t t 0 t.length 0 t.length).i
        (mainLoop t t 0 t.length 0 t.length))
      = ⟨0, 0, t.length⟩
  rw [hm]
  show extendFwd t t t.length t.length
      (t.length - ((extendBack t t 0 0 i ⟨i, i, s⟩).i
        + (extendBack t t 0 0 i ⟨i, i, s⟩).size))
      (extendBack t t 0 0 i ⟨i, i, s⟩) = ⟨0, 0, t.length⟩
  rw [hEB]
  show extendFwd t t t.length t.length (t.length - (0 + (s + i))) ⟨0, 0, s + i⟩
      = ⟨0, 0, t.length⟩
  exact hEF

theorem matchingBlocksAux_refl (t : List String) (fuel : Nat) :
    matchingBlocksAux t t (fuel + 1) 0 t.length 0 t.length
      = if t.length = 0 then [] else [⟨0, 0, t.length⟩] := by
  by_cases h0 : t.length = 0
  · rw [if_pos h0]
    simp only [matchingBlocksAux]
    rw [findLongestMatch_refl]
    simp [h0]
  · rw [if_neg h0]
    simp only [matchingBlocksAux]
    rw [findLongestMatch_refl]
    simp [h0]

theorem getMatchingBlocks_refl (t : List String) :
    getMatchingBlocks t t = if t.length = 0 then [⟨0, 0, 0⟩]
      else [⟨0, 0, t.length⟩, ⟨t.length, t.length, 0⟩] := by
  unfold getMatchingBlocks
  rw [matchingBlocksAux_refl t (t.length + t.length)]
  by_cases h0 : t.length = 0
  · rw [if_pos h0, if_pos h0, h0]
    simp [mergeBlocks]
  · rw [if_neg h0, if_neg h0]
    simp [mergeBlocks, h0]

/-- Comparing a token sequence with itself yields no non-`equal`
opcodes. -/
theorem diffOps_refl (t : List String) : diffOps t t = [] := by
  unfold diffOps getOpcodes
  rw [getMatchingBlocks_refl]
  by_cases h0 : t.length = 0
  · rw [if_pos h0]
    simp [opcodesAux]
  · rw [if_neg h0]
    simp [opcodesAux, h0, List.filter]

/-- C6: for every HTML document, the visible text the crawl engine
extracts (decompose `script`/`style`/`noscript`/`template`, then
whitespace-normalize the text) equals the visible text the comparator
extracts from a mirror built from the same unmodified HTML, and
tokenizing both texts and running the `SequenceMatcher` alignment yields
zero non-`equal` opcodes, so the page is counted as having no diffs. -/
theorem claim_C6_round_trip (doc : Node) :
    agentPageText doc = extractVisibleText doc ∧
    diffOps (word_tokens (agentPageText doc))
        (word_tokens (extractVisibleText doc)) = [] ∧
    pageHasDiffs (agentPageText doc) (extractVisibleText doc) = false := by
  refine ⟨rfl, ?_, ?_⟩
  · exact diffOps_refl (word_tokens (agentPageText doc))
  · show (!(diffOps (word_tokens (agentPageText doc))
        (word_tokens (agentPageText doc))).isEmpty) = false
    rw [diffOps_refl]
    rfl

/-! ### ASCII lower-casing facts used for the `normalize_url` fixed-point
analysis -/

theorem char_toNat_inj {c d : Char} (h : c.toNat = d.toNat) : c = d := by
  have h1 := Char.ofNat_toNat c
  rw [h] at h1
  exact h1.symm.trans (Char.ofNat_toNat d)

theorem toNat_ofNat_small {n : Nat} (h : n < 55296) : (Char.ofNat n).toNat = n := by
  have hv : n.isValidChar := Or.inl h
  unfold Char.ofNat
  rw [dif_pos hv]
  rfl

theorem asciiLower_toNat (c : Char) :
    (asciiLower c).toNat
      = if 65 ≤ c.toNat ∧ c.toNat ≤ 90 then c.toNat + 32 else c.toNat := by
  unfold asciiLower
  by_cases h : 65 ≤ c.toNat ∧ c.toNat ≤ 90
  · rw [if_pos h, if_pos (show ('A' ≤ c && c ≤ 'Z') = true by
      rw [Bool.and_eq_true, decide_eq_true_eq, decide_eq_true_eq]
      exact ⟨h.1, h.2⟩)]
    exact toNat_ofNat_small (by omega)
  · rw [if_neg h, if_neg (show ¬ (('A' ≤ c && c ≤ 'Z') = true) by
      rw [Bool.and_eq_true, decide_eq_true_eq, decide_eq_true_eq]
      exact h)]

theorem asciiLower_idem (c : Char) : asciiLower (asciiLower c) = asciiLower c := by
  apply char_toNat_inj
  rw [asciiLower_toNat (asciiLower c)]
  by_cases hc : 65 ≤ c.toNat ∧ c.toNat ≤ 90
  · have h1 : (asciiLower c).toNat = c.toNat + 32 := by rw [asciiLower_toNat, if_pos hc]
    rw [h1, if_neg (by omega)]
  · have h1 : (asciiLower c).toNat = c.toNat := by rw [asciiLower_toNat, if_neg hc]
    rw [h1, if_neg hc]

theorem lowerL_idem (l : List Char) : lowerL (lowerL l) = lowerL l := by
  unfold lowerL
  rw [List.map_map]
  induction l with
  | nil => rfl
  | cons c cs ih => simp only [List.map_cons, Function.comp_apply, asciiLower_idem,
      List.cons.injEq, true_and] at ih ⊢; exact ih

/-- `asciiLower` neither produces nor destroys a character outside the
letter ranges (separators, brackets, control characters). -/
theorem asciiLower_eq_special {c d : Char}
    (hd : d.toNat < 65 ∨ (90 < d.toNat ∧ d.toNat < 97) ∨ 122 < d.toNat) :
    asciiLower c = d ↔ c = d := by
  constructor
  · intro h
    have ht := congrArg Char.toNat h
    rw [asciiLower_toNat] at ht
    by_cases hc : 65 ≤ c.toNat ∧ c.toNat ≤ 90
    · rw [if_pos hc] at ht
      exact absurd ht (by omega)
    · rw [if_neg hc] at ht
      exact char_toNat_inj ht
  · intro h
    subst h
    have hc2 : ¬ (65 ≤ c.toNat ∧ c.toNat ≤ 90) := by omega
    apply char_toNat_inj
    rw [asciiLower_toNat, if_neg hc2]

theorem mem_lowerL_special {d : Char}
    (hd : d.toNat < 65 ∨ (90 < d.toNat ∧ d.toNat < 97) ∨ 122 < d.toNat)
    {l : List Char} : d ∈ lowerL l ↔ d ∈ l := by
  unfold lowerL
  rw [List.mem_map]
  constructor
  · rintro ⟨x, hx, hax⟩
    rw [← (asciiLower_eq_special hd).mp hax]
    exact hx
  · intro h
    exact ⟨d, h, (asciiLower_eq_special hd).mpr rfl⟩

theorem isAlphanum_iff {c : Char} : c.isAlphanum = true ↔
    ((48 ≤ c.toNat ∧ c.toNat ≤ 57) ∨ (65 ≤ c.toNat ∧ c.toNat ≤ 90) ∨
     (97 ≤ c.toNat ∧ c.toNat ≤ 122)) := by
  simp only [Char.isAlphanum, Char.isAlpha, Char.isDigit, Char.isUpper, Char.isLower,
    Bool.or_eq_true, Bool.and_eq_true, decide_eq_true_eq]
  constructor
  · rintro ((⟨a, b⟩ | ⟨a, b⟩) | ⟨a, b⟩)
    · exact Or.inr (Or.inl ⟨a, b⟩)
    · exact Or.inr (Or.inr ⟨a, b⟩)
    · exact Or.inl ⟨a, b⟩
  · rintro (⟨a, b⟩ | ⟨a, b⟩ | ⟨a, b⟩)
    · exact Or.inr ⟨a, b⟩
    · exact Or.inl (Or.inl ⟨a, b⟩)
    · exact Or.inl (Or.inr ⟨a, b⟩)

theorem isAlpha_iff {c : Char} : c.isAlpha = true ↔
    ((65 ≤ c.toNat ∧ c.toNat ≤ 90) ∨ (97 ≤ c.toNat ∧ c.toNat ≤ 122)) := by
  simp only [Char.isAlpha, Char.isUpper, Char.isLower,
    Bool.or_eq_true, Bool.and_eq_true, decide_eq_true_eq]
  constructor
  · rintro (⟨a, b⟩ | ⟨a, b⟩)
    · exact Or.inl ⟨a, b⟩
    · exact Or.inr ⟨a, b⟩
  · rintro (⟨a, b⟩ | ⟨a, b⟩)
    · exact Or.inl ⟨a, b⟩
    · exact Or.inr ⟨a, b⟩

theorem isAlpha_asciiLower {c : Char} (h : c.isAlpha = true) :
    (asciiLower c).isAlpha = true := by
  rw [isAlpha_iff] at h ⊢
  rw [asciiLower_toNat]
  rcases h with h | h
  · rw [if_pos h]
    exact Or.inr (by omega)
  · rw [if_neg (by omega)]
    exact Or.inr h

theorem isSchemeChar_asciiLower {c : Char} (h : isSchemeChar c = true) :
    isSchemeChar (asciiLower c) = true := by
  unfold isSchemeChar at h ⊢
  simp only [Bool.or_eq_true, decide_eq_true_eq] at h ⊢
  rcases h with ((h | h) | h) | h
  · rw [isAlphanum_iff] at h
    refine Or.inl (Or.inl (Or.inl ?_))
    rw [isAlphanum_iff, asciiLower_toNat]
    rcases h with h | h | h
    · rw [if_neg (by omega)]
      exact Or.inl h
    · rw [if_pos h]
      exact Or.inr (Or.inr (by omega))
    · rw [if_neg (by omega)]
      exact Or.inr (Or.inr h)
  · subst h
    exact Or.inl (Or.inl (Or.inr ((asciiLower_eq_special (by decide)).mpr rfl)))
  · subst h
    exact Or.inl (Or.inr ((asciiLower_eq_special (by decide)).mpr rfl))
  · subst h
    exact Or.inr ((asciiLower_eq_special (by decide)).mpr rfl)

theorem removeUnsafe_eq_self {l : List Char} :
    removeUnsafe l = l ↔ ∀ c ∈ l, (!(c = '\t' || c = '\r' || c = '\n')) = true := by
  unfold removeUnsafe
  exact List.filter_eq_self

theorem splitNetloc_append {a : List Char} :
    ∀ {b : List Char},
    (∀ c ∈ a, ¬(c = '/' ∨ c = '?' ∨ c = '#')) →
    (b = [] ∨ ∃ c cs, b = c :: cs ∧ (c = '/' ∨ c = '?' ∨ c = '#')) →
    splitNetloc (a ++ b) = (a, b) := by
  induction a with
  | nil =>
    intro b _ hb
    rcases hb with rfl | ⟨c, cs, rfl, hc⟩
    · rfl
    · show splitNetloc (c :: cs) = ([], c :: cs)
      unfold splitNetloc
      rw [if_pos (by rcases hc with h | h | h <;> simp [h])]
  | cons x xs ih =>
    intro b ha hb
    have hx := ha x (List.mem_cons_self x xs)
    show splitNetloc (x :: (xs ++ b)) = (x :: xs, b)
    unfold splitNetloc
    rw [if_neg (by simp only [Bool.or_eq_true, decide_eq_true_eq]; tauto)]
    show (x :: (splitNetloc (xs ++ b)).1, (splitNetloc (xs ++ b)).2) = (x :: xs, b)
    rw [ih (fun c hc => ha c (List.mem_cons_of_mem _ hc)) hb]

theorem splitAtLast_of_mem {c : Char} {l : List Char} (h : c ∈ l) :
    ∃ a b, splitAtLast c l = some (a, b) := by
  unfold splitAtLast
  rcases hsp : splitAtFirst c l.reverse with _ | ⟨p1, p2⟩
  · rw [splitAtFirst_eq_none] at hsp
    exact absurd (List.mem_reverse.mpr h) hsp
  · exact ⟨p2.reverse, p1.reverse, rfl⟩

/-- The parameters `_splitparams` splits off a slash-containing path are
stable: re-splitting the recombined `path;params` gives the same pair. -/
theorem splitParams_stable {p a b : List Char} (hs : '/' ∈ p)
    (h : splitParams p = (a, b)) :
    ';' ∈ (if b = [] then a else a ++ ';' :: b) →
      splitParams (if b = [] then a else a ++ ';' :: b) = (a, b) := by
  intro hmem
  obtain ⟨pre, seg, hsl⟩ := splitAtLast_of_mem hs
  obtain ⟨hp, hslash⟩ := splitAtLast_eq_some.mp hsl
  rcases hsf : splitAtFirst ';' seg with _ | ⟨x, y⟩
  · have hcomp : splitParams p = (p, []) := by
      unfold splitParams
      rw [if_pos hs, hsl]
      simp only [hsf]
    rw [h] at hcomp
    have ha : a = p := congrArg Prod.fst hcomp
    have hb : b = ([] : List Char) := congrArg Prod.snd hcomp
    subst ha
    subst hb
    rw [if_pos rfl]
    unfold splitParams
    rw [if_pos hs, hsl]
    simp only [hsf]
  · obtain ⟨hseg, hxy⟩ := splitAtFirst_eq_some.mp hsf
    have hcomp : splitParams p = (pre ++ '/' :: x, y) := by
      unfold splitParams
      rw [if_pos hs, hsl]
      simp only [hsf]
    rw [h] at hcomp
    have ha : a = pre ++ '/' :: x := congrArg Prod.fst hcomp
    have hb : b = y := congrArg Prod.snd hcomp
    rw [ha, hb] at hmem ⊢
    have hsx : '/' ∉ x := fun hm => hslash (hseg ▸ List.mem_append_left _ hm)
    have hsy : '/' ∉ y := fun hm =>
      hslash (hseg ▸ List.mem_append_right _ (List.mem_cons_of_mem _ hm))
    by_cases hbnil : y = []
    · subst hbnil
      rw [if_pos rfl] at hmem ⊢
      unfold splitParams
      rw [if_pos (List.mem_append_right _ (List.mem_cons_self _ _)),
        splitAtLast_eq_some.mpr (⟨rfl, hsx⟩ :
          pre ++ '/' :: x = pre ++ '/' :: x ∧ '/' ∉ x)]
      simp only [splitAtFirst_eq_none.mpr hxy]
    · rw [if_neg hbnil] at hmem ⊢
      have hassoc : (pre ++ '/' :: x) ++ ';' :: y = pre ++ '/' :: (x ++ ';' :: y) := by
        simp [List.append_assoc]
      have hnot : '/' ∉ x ++ ';' :: y := by
        intro hm
        rcases List.mem_append.mp hm with hm | hm
        · exact hsx hm
        · rcases List.mem_cons.mp hm with hm | hm
          · exact absurd hm.symm (by decide)
          · exact hsy hm
      unfold splitParams
      rw [if_pos (List.mem_append_left _ (List.mem_append_right _
            (List.mem_cons_self _ _))),
        splitAtLast_eq_some.mpr ⟨hassoc, hnot⟩]
      simp only [splitAtFirst_sep hxy]

/-- The shape `urlunparse` produces for a result with nonempty scheme and
netloc, a slash-leading path and no fragment. -/
theorem urlunparseL_wf {sch nl pa' par q : List Char} (hs : sch ≠ []) (hn : nl ≠ []) :
    urlunparseL ⟨sch, nl, '/' :: pa', par, q, []⟩
      = sch ++ ':' :: ('/' :: '/' :: ((nl ++
          (if par = [] then '/' :: pa' else '/' :: pa' ++ ';' :: par)) ++
          (if q = [] then [] else '?' :: q))) := by
  by_cases hpar : par = [] <;> by_cases hq : q = [] <;>
    simp [urlunparseL, hpar, hq, hs, hn, List.append_assoc]

theorem splitScheme_sep {sch R : List Char} {c : Char} {cs : List Char}
    (hse : sch = c :: cs) (hca : c.isAlpha = true) (hcs : cs.all isSchemeChar = true)
    (hlow : lowerL sch = sch) :
    splitScheme (sch ++ ':' :: R) = some (sch, R) := by
  have hcolon : ':' ∉ sch := by
    rw [hse]
    intro hm
    rcases List.mem_cons.mp hm with hm | hm
    · rw [← hm] at hca
      exact absurd hca (by decide)
    · have := List.all_eq_true.mp hcs _ hm
      exact absurd this (by decide)
  subst hse
  unfold splitScheme
  rw [splitAtFirst_sep hcolon]
  simp only []
  rw [if_pos (show (c.isAlpha && cs.all isSchemeChar) = true from by
    rw [Bool.and_eq_true]; exact ⟨hca, hcs⟩), hlow]

/-- `urlsplit` on a URL of the canonical `scheme://netloc/path?query`
shape recovers the components. -/
theorem urlsplit_of_shape {sch nl U Q q : List Char} {c : Char} {cs : List Char}
    (hse : sch = c :: cs) (hca : c.isAlpha = true) (hcs : cs.all isSchemeChar = true)
    (hlow : lowerL sch = sch)
    (hnstop : ∀ ch ∈ nl, ¬(ch = '/' ∨ ch = '?' ∨ ch = '#'))
    (hbr : (('[' ∈ nl && ']' ∉ nl) || (']' ∈ nl && '[' ∉ nl)) = false)
    (hUhead : ∃ t, U = '/' :: t)
    (hUQh : '#' ∉ U ++ Q)
    (hUq : '?' ∉ U)
    (hQ : (Q = [] ∧ q = []) ∨ Q = '?' :: q)
    (hsafe : removeUnsafe (sch ++ ':' :: ('/' :: '/' :: ((nl ++ U) ++ Q)))
        = sch ++ ':' :: ('/' :: '/' :: ((nl ++ U) ++ Q))) :
    urlsplitL [] (sch ++ ':' :: ('/' :: '/' :: ((nl ++ U) ++ Q)))
      = Except.ok ⟨sch, nl, U, q, []⟩ := by
  obtain ⟨t, hUt⟩ := hUhead
  simp only [urlsplitL]
  rw [hsafe, splitScheme_sep hse hca hcs hlow]
  simp only []
  rw [if_pos (show List.take 2 ('/' :: '/' :: ((nl ++ U) ++ Q)) = ['/', '/'] from rfl),
    show List.drop 2 ('/' :: '/' :: ((nl ++ U) ++ Q)) = (nl ++ U) ++ Q from rfl,
    List.append_assoc,
    splitNetloc_append hnstop
      (Or.inr ⟨'/', t ++ Q, by rw [hUt]; rfl, Or.inl rfl⟩)]
  simp only []
  rw [if_neg (show ¬ ((('[' ∈ nl && ']' ∉ nl) || (']' ∈ nl && '[' ∉ nl)) = true) from by
    rw [hbr]; simp)]
  rw [splitAtFirst_eq_none.mpr hUQh]
  simp only []
  rcases hQ with ⟨rfl, rfl⟩ | rfl
  · rw [List.append_nil, splitAtFirst_eq_none.mpr hUq]
  · rw [splitAtFirst_sep hUq]

/-- `urlparse` is a left inverse of `urlunparse` on results whose
components are well-formed parse outputs. -/
theorem urlparse_unparse_roundtrip {sch nl pa par q : List Char} {c : Char}
    {cs : List Char}
    (hse : sch = c :: cs) (hca : c.isAlpha = true) (hcs : cs.all isSchemeChar = true)
    (hlow : lowerL sch = sch)
    (hn : nl ≠ [])
    (hnstop : ∀ ch ∈ nl, ¬(ch = '/' ∨ ch = '?' ∨ ch = '#'))
    (hbr : (('[' ∈ nl && ']' ∉ nl) || (']' ∈ nl && '[' ∉ nl)) = false)
    (hpa1 : pa.take 1 = ['/'])
    (hpq : '?' ∉ pa) (hph : '#' ∉ pa)
    (hprq : '?' ∉ par) (hprh : '#' ∉ par)
    (hqh : '#' ∉ q)
    (hsafe : removeUnsafe (urlunparseL ⟨sch, nl, pa, par, q, []⟩)
        = urlunparseL ⟨sch, nl, pa, par, q, []⟩)
    (hsp : ';' ∈ (if par = [] then pa else pa ++ ';' :: par) →
      splitParams (if par = [] then pa else pa ++ ';' :: par) = (pa, par)) :
    urlparseL [] (urlunparseL ⟨sch, nl, pa, par, q, []⟩)
      = Except.ok ⟨sch, nl, pa, par, q, []⟩ := by
  have hs : sch ≠ [] := by rw [hse]; exact List.cons_ne_nil c cs
  obtain ⟨pa', rfl⟩ : ∃ t, pa = '/' :: t := by
    cases pa with
    | nil => exact absurd hpa1 (by simp)
    | cons x t =>
      have hx : x = '/' := by simpa using hpa1
      exact ⟨t, by rw [hx]⟩
  have hshape := @urlunparseL_wf sch nl pa' par q hs hn
  have hUhead : ∃ t2, (if par = [] then '/' :: pa' else '/' :: pa' ++ ';' :: par)
      = '/' :: t2 := by
    by_cases hpar : par = []
    · exact ⟨pa', by rw [if_pos hpar]⟩
    · exact ⟨pa' ++ ';' :: par, by rw [if_neg hpar]; rfl⟩
  have hUq : '?' ∉ (if par = [] then '/' :: pa' else '/' :: pa' ++ ';' :: par) := by
    by_cases hpar : par = []
    · rw [if_pos hpar]; exact hpq
    · rw [if_neg hpar]
      intro hm
      rcases List.mem_append.mp hm with hm | hm
      · exact hpq hm
      · rcases List.mem_cons.mp hm with hm | hm
        · exact absurd hm.symm (by decide)
        · exact hprq hm
  have hUh : '#' ∉ (if par = [] then '/' :: pa' else '/' :: pa' ++ ';' :: par) := by
    by_cases hpar : par = []
    · rw [if_pos hpar]; exact hph
    · rw [if_neg hpar]
      intro hm
      rcases List.mem_append.mp hm with hm | hm
      · exact hph hm
      · rcases List.mem_cons.mp hm with hm | hm
        · exact absurd hm.symm (by decide)
        · exact hprh hm
  have hUQh : '#' ∉ (if par = [] then '/' :: pa' else '/' :: pa' ++ ';' :: par)
      ++ (if q = [] then [] else '?' :: q) := by
    intro hm
    rcases List.mem_append.mp hm with hm | hm
    · exact hUh hm
    · by_cases hq : q = []
      · rw [if_pos hq] at hm
        exact absurd hm (List.not_mem_nil _)
      · rw [if_neg hq] at hm
        rcases List.mem_cons.mp hm with hm | hm
        · exact absurd hm.symm (by decide)
        · exact hqh hm
  have hQalt : ((if q = [] then ([] : List Char) else '?' :: q) = [] ∧ q = []) ∨
      (if q = [] then ([] : List Char) else '?' :: q) = '?' :: q := by
    by_cases hq : q = []
    · exact Or.inl ⟨by rw [if_pos hq], hq⟩
    · exact Or.inr (by rw [if_neg hq])
  have hsafe2 : removeUnsafe (sch ++ ':' :: ('/' :: '/' :: ((nl ++
      (if par = [] then '/' :: pa' else '/' :: pa' ++ ';' :: par)) ++
      (if q = [] then [] else '?' :: q))))
      = sch ++ ':' :: ('/' :: '/' :: ((nl ++
      (if par = [] then '/' :: pa' else '/' :: pa' ++ ';' :: par)) ++
      (if q = [] then [] else '?' :: q))) := by
    rw [← hshape]
    exact hsafe
  have hsplit := urlsplit_of_shape hse hca hcs hlow hnstop hbr hUhead hUQh hUq
    hQalt hsafe2
  unfold urlparseL
  rw [hshape, hsplit]
  simp only [Except.map]
  by_cases hsemi : ';' ∈ (if par = [] then '/' :: pa' else '/' :: pa' ++ ';' :: par)
  · rw [if_pos hsemi, hsp hsemi]
  · have hpar : par = [] := by
      by_contra hne
      exact hsemi (by
        rw [if_neg hne]
        exact List.mem_append_right _ (List.mem_cons_self _ _))
    subst hpar
    rw [if_neg hsemi]
    rw [if_pos rfl] at hsemi ⊢

theorem splitNetloc_spec : ∀ (l : List Char),
    (splitNetloc l).1 ++ (splitNetloc l).2 = l ∧
    (∀ c ∈ (splitNetloc l).1, ¬(c = '/' ∨ c = '?' ∨ c = '#')) ∧
    ((splitNetloc l).2 = [] ∨ ∃ c cs, (splitNetloc l).2 = c :: cs ∧
      (c = '/' ∨ c = '?' ∨ c = '#')) := by
  intro l
  induction l with
  | nil =>
    refine ⟨rfl, ?_, Or.inl rfl⟩
    intro c hc
    exact absurd hc (List.not_mem_nil c)
  | cons x xs ih =>
    unfold splitNetloc
    by_cases hx : (x = '/' || x = '?' || x = '#') = true
    · rw [if_pos hx]
      refine ⟨rfl, ?_, Or.inr ⟨x, xs, rfl, ?_⟩⟩
      · intro c hc
        exact absurd hc (List.not_mem_nil c)
      · simpa only [Bool.or_eq_true, decide_eq_true_eq, or_assoc] using hx
    · rw [if_neg hx]
      obtain ⟨ih1, ih2, ih3⟩ := ih
      refine ⟨?_, ?_, ih3⟩
      · show x :: ((splitNetloc xs).1 ++ (splitNetloc xs).2) = x :: xs
        rw [ih1]
      · intro c hc
        rcases List.mem_cons.mp hc with rfl | hc
        · intro hor
          apply hx

          simpa only [Bool.or_eq_true, decide_eq_true_eq, or_assoc] using hor
        · exact ih2 c hc

theorem splitScheme_eq_some {l sch rest : List Char}
    (h : splitScheme l = some (sch, rest)) :
    ∃ c cs, l = (c :: cs) ++ ':' :: rest ∧ sch = lowerL (c :: cs) ∧
      c.isAlpha = true ∧ cs.all isSchemeChar = true := by
  unfold splitScheme at h
  rcases hsf : splitAtFirst ':' l with _ | ⟨pre, rest2⟩
  · rw [hsf] at h
    exact absurd h (by simp)
  · rw [hsf] at h
    obtain ⟨hl, hpre⟩ := splitAtFirst_eq_some.mp hsf
    rcases pre with _ | ⟨c, cs⟩
    · simp at h
    · simp only [] at h
      by_cases hcond : (c.isAlpha && cs.all isSchemeChar) = true
      · rw [if_pos hcond] at h
        rw [Bool.and_eq_true] at hcond
        obtain ⟨h1, h2⟩ := hcond
        have hinj := Option.some.inj h
        have hfst : lowerL (c :: cs) = sch := congrArg Prod.fst hinj
        have hsnd : rest2 = rest := congrArg Prod.snd hinj
        exact ⟨c, cs, by rw [hl, hsnd], hfst.symm, h1, h2⟩
      · rw [if_neg hcond] at h
        exact absurd h (by simp)

theorem splitParams_facts {p a b : List Char} (hs : '/' ∈ p)
    (h : splitParams p = (a, b)) :
    (∀ x ∈ a, x ∈ p) ∧ (∀ x ∈ b, x ∈ p) ∧ a.take 1 = p.take 1 := by
  obtain ⟨pre, seg, hsl⟩ := splitAtLast_of_mem hs
  obtain ⟨hp, hslash⟩ := splitAtLast_eq_some.mp hsl
  rcases hsf : splitAtFirst ';' seg with _ | ⟨x, y⟩
  · have hcomp : splitParams p = (p, []) := by
      unfold splitParams
      rw [if_pos hs, hsl]
      simp only [hsf]
    rw [h] at hcomp
    have ha : a = p := congrArg Prod.fst hcomp
    have hb : b = ([] : List Char) := congrArg Prod.snd hcomp
    subst ha
    subst hb
    refine ⟨fun x hx => hx, ?_, rfl⟩
    intro x hx
    exact absurd hx (List.not_mem_nil x)
  · obtain ⟨hseg, hxy⟩ := splitAtFirst_eq_some.mp hsf
    have hcomp : splitParams p = (pre ++ '/' :: x, y) := by
      unfold splitParams
      rw [if_pos hs, hsl]
      simp only [hsf]
    rw [h] at hcomp
    have ha : a = pre ++ '/' :: x := congrArg Prod.fst hcomp
    have hb : b = y := congrArg Prod.snd hcomp
    subst ha
    subst hb
    refine ⟨?_, ?_, ?_⟩
    · intro z hz
      rw [hp, hseg]
      rcases List.mem_append.mp hz with hz | hz
      · exact List.mem_append_left _ hz
      · rcases List.mem_cons.mp hz with rfl | hz
        · exact List.mem_append_right _ (List.mem_cons_self _ _)
        · exact List.mem_append_right _ (List.mem_cons_of_mem _
            (List.mem_append_left _ hz))
    · intro z hz
      rw [hp, hseg]
      exact List.mem_append_right _ (List.mem_cons_of_mem _
        (List.mem_append_right _ (List.mem_cons_of_mem _ hz)))
    · rw [hp]
      cases pre with
      | nil => rfl
      | cons w ws => rfl

theorem safe_of_ne {ch : Char} (h1 : ch ≠ '\t') (h2 : ch ≠ '\r') (h3 : ch ≠ '\n') :
    (!(ch = '\t' || ch = '\r' || ch = '\n')) = true := by
  simp [h1, h2, h3]

theorem ne_of_safe {ch : Char} (h : (!(ch = '\t' || ch = '\r' || ch = '\n')) = true) :
    ch ≠ '\t' ∧ ch ≠ '\r' ∧ ch ≠ '\n' := by
  have h2 : (¬ch = '\t' ∧ ¬ch = '\r') ∧ ¬ch = '\n' := by simpa using h
  exact ⟨h2.1.1, h2.1.2, h2.2⟩

theorem lowerL_safe {l : List Char}
    (h : ∀ ch ∈ l, (!(ch = '\t' || ch = '\r' || ch = '\n')) = true) :
    ∀ ch ∈ lowerL l, (!(ch = '\t' || ch = '\r' || ch = '\n')) = true := by
  intro ch hch
  obtain ⟨x, hx, hax⟩ := List.mem_map.mp hch
  obtain ⟨h1, h2, h3⟩ := ne_of_safe (h x hx)
  refine safe_of_ne ?_ ?_ ?_ <;> intro heq <;> rw [heq] at hax
  · exact h1 ((asciiLower_eq_special (by decide)).mp hax)
  · exact h2 ((asciiLower_eq_special (by decide)).mp hax)
  · exact h3 ((asciiLower_eq_special (by decide)).mp hax)

/-- Assemble the `urlsplit` success facts from the resolved components. -/
theorem urlsplit_conclude {sch0 n1 n2 PATH QUERY FRAG : List Char} {s : SplitResult}
    (h : (Except.ok (⟨sch0, n1, PATH, QUERY, FRAG⟩ : SplitResult) :
      Except String SplitResult) = Except.ok s)
    (hsch0 : ∃ c cs, sch0 = lowerL (c :: cs) ∧ c.isAlpha = true ∧
      cs.all isSchemeChar = true)
    (hstop : ∀ ch ∈ n1, ¬(ch = '/' ∨ ch = '?' ∨ ch = '#'))
    (hbrf : (('[' ∈ n1 && ']' ∉ n1) || (']' ∈ n1 && '[' ∉ n1)) = false)
    (hsafen1 : ∀ ch ∈ n1, (!(ch = '\t' || ch = '\r' || ch = '\n')) = true)
    (hsafen2 : ∀ ch ∈ n2, (!(ch = '\t' || ch = '\r' || ch = '\n')) = true)
    (hmp : ∀ z ∈ PATH, z ∈ n2) (hmq : ∀ z ∈ QUERY, z ∈ n2)
    (hpq : '?' ∉ PATH) (hph : '#' ∉ PATH) (hqh : '#' ∉ QUERY)
    (hpref : ∀ z t, PATH = z :: t → ∃ t2, n2 = z :: t2)
    (hN3 : n2 = [] ∨ ∃ cst cs2, n2 = cst :: cs2 ∧ (cst = '/' ∨ cst = '?' ∨ cst = '#')) :
    (∃ c cs, s.scheme = lowerL (c :: cs) ∧ c.isAlpha = true ∧
      cs.all isSchemeChar = true) ∧
    (∀ ch ∈ s.netloc, ¬(ch = '/' ∨ ch = '?' ∨ ch = '#')) ∧
    ((('[' ∈ s.netloc && ']' ∉ s.netloc) || (']' ∈ s.netloc && '[' ∉ s.netloc))
      = false) ∧
    (s.path = [] ∨ s.path.take 1 = ['/']) ∧
    '?' ∉ s.path ∧ '#' ∉ s.path ∧ '#' ∉ s.query ∧
    (∀ ch ∈ s.netloc, (!(ch = '\t' || ch = '\r' || ch = '\n')) = true) ∧
    (∀ ch ∈ s.path, (!(ch = '\t' || ch = '\r' || ch = '\n')) = true) ∧
    (∀ ch ∈ s.query, (!(ch = '\t' || ch = '\r' || ch = '\n')) = true) := by
  have hs := Except.ok.inj h
  subst hs
  refine ⟨hsch0, hstop, hbrf, ?_, hpq, hph, hqh, hsafen1,
    fun ch hch => hsafen2 ch (hmp ch hch), fun ch hch => hsafen2 ch (hmq ch hch)⟩
  cases PATH with
  | nil => exact Or.inl rfl
  | cons z t =>
    obtain ⟨t2, hn2⟩ := hpref z t rfl
    rcases hN3 with hN3 | ⟨cst, cs2, hcst, hor⟩
    · rw [hN3] at hn2
      exact absurd hn2 (by simp)
    · rw [hcst] at hn2
      injection hn2 with h1 _
      rw [h1] at hor
      rcases hor with hz | hz | hz
      · right
        show List.take 1 (z :: t) = ['/']
        rw [hz]
        rfl
      · subst hz
        exact absurd (List.mem_cons_self _ _) hpq
      · subst hz
        exact absurd (List.mem_cons_self _ _) hph

/-- Facts about a successful `urlsplit` with empty default scheme whose
result has a nonempty scheme and netloc. -/
theorem urlsplitL_ok_facts {l : List Char} {s : SplitResult}
    (h : urlsplitL [] l = Except.ok s) (hsch : s.scheme ≠ []) (hnet : s.netloc ≠ []) :
    (∃ c cs, s.scheme = lowerL (c :: cs) ∧ c.isAlpha = true ∧
      cs.all isSchemeChar = true) ∧
    (∀ ch ∈ s.netloc, ¬(ch = '/' ∨ ch = '?' ∨ ch = '#')) ∧
    ((('[' ∈ s.netloc && ']' ∉ s.netloc) || (']' ∈ s.netloc && '[' ∉ s.netloc))
      = false) ∧
    (s.path = [] ∨ s.path.take 1 = ['/']) ∧
    '?' ∉ s.path ∧ '#' ∉ s.path ∧ '#' ∉ s.query ∧
    (∀ ch ∈ s.netloc, (!(ch = '\t' || ch = '\r' || ch = '\n')) = true) ∧
    (∀ ch ∈ s.path, (!(ch = '\t' || ch = '\r' || ch = '\n')) = true) ∧
    (∀ ch ∈ s.query, (!(ch = '\t' || ch = '\r' || ch = '\n')) = true) := by
  simp only [urlsplitL] at h
  have hsafeL : ∀ ch ∈ removeUnsafe l,
      (!(ch = '\t' || ch = '\r' || ch = '\n')) = true := by
    intro ch hch
    unfold removeUnsafe at hch
    exact (List.mem_filter.mp hch).2
  rcases hss : splitScheme (removeUnsafe l) with _ | ⟨sch0, rest0⟩
  · rw [hss] at h
    simp only [] at h
    rw [show removeUnsafe ([] : List Char) = [] from rfl] at h
    by_cases ht2 : List.take 2 (removeUnsafe l) = ['/', '/']
    · rw [if_pos ht2] at h
      split at h
      · exact Except.noConfusion h
      · exact absurd ((congrArg SplitResult.scheme (Except.ok.inj h)).symm) hsch
    · rw [if_neg ht2] at h
      split at h
      · exact Except.noConfusion h
      · exact absurd ((congrArg SplitResult.scheme (Except.ok.inj h)).symm) hsch
  · rw [hss] at h
    simp only [] at h
    obtain ⟨c, cs, hl2eq, hsch0eq, hca, hcs⟩ := splitScheme_eq_some hss
    have hsafeRest : ∀ ch ∈ rest0,
        (!(ch = '\t' || ch = '\r' || ch = '\n')) = true := by
      intro ch hch
      apply hsafeL
      rw [hl2eq]
      exact List.mem_append_right _ (List.mem_cons_of_mem _ hch)
    by_cases ht2 : List.take 2 rest0 = ['/', '/']
    · rw [if_pos ht2] at h
      obtain ⟨hN1, hN2, hN3⟩ := splitNetloc_spec (List.drop 2 rest0)
      set N1 := (splitNetloc (List.drop 2 rest0)).1 with hN1def
      set N2 := (splitNetloc (List.drop 2 rest0)).2 with hN2def
      have hsafe_n1 : ∀ ch ∈ N1,
          (!(ch = '\t' || ch = '\r' || ch = '\n')) = true := by
        intro ch hch
        apply hsafeRest
        exact (List.drop_sublist 2 rest0).subset
          (hN1 ▸ List.mem_append_left _ hch)
      have hsafe_n2 : ∀ ch ∈ N2,
          (!(ch = '\t' || ch = '\r' || ch = '\n')) = true := by
        intro ch hch
        apply hsafeRest
        exact (List.drop_sublist 2 rest0).subset
          (hN1 ▸ List.mem_append_right _ hch)
      by_cases hbad : (('[' ∈ N1 && ']' ∉ N1) || (']' ∈ N1 && '[' ∉ N1)) = true
      · rw [if_pos hbad] at h
        exact Except.noConfusion h
      · rw [if_neg hbad] at h
        have hbrf : (('[' ∈ N1 && ']' ∉ N1) || (']' ∈ N1 && '[' ∉ N1)) = false :=
          Bool.eq_false_iff.mpr hbad
        rcases hfr : splitAtFirst '#' N2 with _ | ⟨f1, f2⟩
        · rw [hfr] at h
          simp only [] at h
          have hh2 : '#' ∉ N2 := splitAtFirst_eq_none.mp hfr
          rcases hqr : splitAtFirst '?' N2 with _ | ⟨q1, q2⟩
          · rw [hqr] at h
            simp only [] at h
            have hq2 : '?' ∉ N2 := splitAtFirst_eq_none.mp hqr
            exact urlsplit_conclude h ⟨c, cs, hsch0eq, hca, hcs⟩ hN2 hbrf
              hsafe_n1 hsafe_n2 (fun z hz => hz)
              (fun z hz => absurd hz (List.not_mem_nil z))
              hq2 hh2 (fun hz => absurd hz (List.not_mem_nil _))
              (fun z t hzt => ⟨t, hzt⟩) hN3
          · rw [hqr] at h
            simp only [] at h
            obtain ⟨hN2eq, hq1⟩ := splitAtFirst_eq_some.mp hqr
            exact urlsplit_conclude h ⟨c, cs, hsch0eq, hca, hcs⟩ hN2 hbrf
              hsafe_n1 hsafe_n2
              (fun z hz => hN2eq ▸ List.mem_append_left _ hz)
              (fun z hz => hN2eq ▸ List.mem_append_right _
                (List.mem_cons_of_mem _ hz))
              hq1
              (fun hz => hh2 (hN2eq ▸ List.mem_append_left _ hz))
              (fun hz => hh2 (hN2eq ▸ List.mem_append_right _
                (List.mem_cons_of_mem _ hz)))
              (fun z t hzt => ⟨t ++ '?' :: q2, by rw [hN2eq, hzt]; rfl⟩) hN3
        · rw [hfr] at h
          simp only [] at h
          obtain ⟨hN2eq, hf1⟩ := splitAtFirst_eq_some.mp hfr
          have hmemf1 : ∀ z ∈ f1, z ∈ N2 := fun z hz =>
            hN2eq ▸ List.mem_append_left _ hz
          rcases hqr : splitAtFirst '?' f1 with _ | ⟨q1, q2⟩
          · rw [hqr] at h
            simp only [] at h
            have hq2 : '?' ∉ f1 := splitAtFirst_eq_none.mp hqr
            exact urlsplit_conclude h ⟨c, cs, hsch0eq, hca, hcs⟩ hN2 hbrf
              hsafe_n1 hsafe_n2 hmemf1
              (fun z hz => absurd hz (List.not_mem_nil z))
              hq2 hf1 (fun hz => absurd hz (List.not_mem_nil _))
              (fun z t hzt => ⟨t ++ '#' :: f2, by rw [hN2eq, hzt]; rfl⟩) hN3
          · rw [hqr] at h
            simp only [] at h
            obtain ⟨hf1eq, hq1⟩ := splitAtFirst_eq_some.mp hqr
            exact urlsplit_conclude h ⟨c, cs, hsch0eq, hca, hcs⟩ hN2 hbrf
              hsafe_n1 hsafe_n2
              (fun z hz => hmemf1 z (hf1eq ▸ List.mem_append_left _ hz))
              (fun z hz => hmemf1 z (hf1eq ▸ List.mem_append_right _
                (List.mem_cons_of_mem _ hz)))
              hq1
              (fun hz => hf1 (hf1eq ▸ List.mem_append_left _ hz))
              (fun hz => hf1 (hf1eq ▸ List.mem_append_right _
                (List.mem_cons_of_mem _ hz)))
              (fun z t hzt => ⟨t ++ '?' :: (q2 ++ '#' :: f2), by
                rw [hN2eq, hf1eq, hzt]
                simp⟩) hN3
    · rw [if_neg ht2] at h
      split at h
      · exact Except.noConfusion h
      · exact absurd ((congrArg SplitResult.netloc (Except.ok.inj h)).symm) hnet

/-- Facts about a successful `urlparse` with empty default scheme whose
result has a nonempty scheme and netloc. -/
theorem urlparseL_ok_facts {l : List Char} {p : ParseResult}
    (h : urlparseL [] l = Except.ok p) (hsch : p.scheme ≠ []) (hnet : p.netloc ≠ []) :
    (∃ c cs, p.scheme = lowerL (c :: cs) ∧ c.isAlpha = true ∧
      cs.all isSchemeChar = true) ∧
    (∀ ch ∈ p.netloc, ¬(ch = '/' ∨ ch = '?' ∨ ch = '#')) ∧
    ((('[' ∈ p.netloc && ']' ∉ p.netloc) || (']' ∈ p.netloc && '[' ∉ p.netloc))
      = false) ∧
    (p.path = [] ∨ p.path.take 1 = ['/']) ∧
    '?' ∉ p.path ∧ '#' ∉ p.path ∧ '?' ∉ p.params ∧ '#' ∉ p.params ∧ '#' ∉ p.query ∧
    (∀ ch ∈ p.netloc, (!(ch = '\t' || ch = '\r' || ch = '\n')) = true) ∧
    (∀ ch ∈ p.path, (!(ch = '\t' || ch = '\r' || ch = '\n')) = true) ∧
    (∀ ch ∈ p.params, (!(ch = '\t' || ch = '\r' || ch = '\n')) = true) ∧
    (∀ ch ∈ p.query, (!(ch = '\t' || ch = '\r' || ch = '\n')) = true) ∧
    (';' ∈ (if p.params = [] then p.path else p.path ++ ';' :: p.params) →
      splitParams (if p.params = [] then p.path else p.path ++ ';' :: p.params)
        = (p.path, p.params)) ∧
    (p.path = [] → p.params = []) := by
  unfold urlparseL at h
  rcases husl : urlsplitL [] l with e | s
  · rw [husl] at h
    exact Except.noConfusion h
  · rw [husl] at h
    simp only [Except.map] at h
    have hp := Except.ok.inj h
    subst hp
    obtain ⟨F1, F2, F3, F4, F5, F6, F7, F8, F9, F10⟩ :=
      urlsplitL_ok_facts husl hsch hnet
    by_cases hsem : ';' ∈ s.path
    · have hslash : '/' ∈ s.path := by
        rcases F4 with hF | hF
        · rw [hF] at hsem
          exact absurd hsem (List.not_mem_nil _)
        · cases hpa : s.path with
          | nil => rw [hpa] at hF; exact absurd hF (by simp)
          | cons z t =>
            rw [hpa] at hF
            have hz : z = '/' := by simpa using hF
            subst hz
            exact List.mem_cons_self _ _
      rcases hpp : splitParams s.path with ⟨pa0, par0⟩
      obtain ⟨hm_a, hm_b, htake⟩ := splitParams_facts hslash hpp
      have hstab := splitParams_stable hslash hpp
      simp only [if_pos hsem, hpp]
      have hF4 : List.take 1 s.path = ['/'] := by
        rcases F4 with hF | hF
        · rw [hF] at hsem
          exact absurd hsem (List.not_mem_nil _)
        · exact hF
      refine ⟨F1, F2, F3, Or.inr (htake.trans hF4),
        fun hz => F5 (hm_a _ hz), fun hz => F6 (hm_a _ hz),
        fun hz => F5 (hm_b _ hz), fun hz => F6 (hm_b _ hz), F7, F8,
        fun ch hch => F9 ch (hm_a ch hch), fun ch hch => F9 ch (hm_b ch hch),
        F10, hstab, ?_⟩
      intro hnil
      rw [hnil] at htake
      rw [htake.symm] at hF4
      exact absurd hF4 (by simp)
    · simp only [if_neg hsem]
      refine ⟨F1, F2, F3, F4, F5, F6,
        fun hz => absurd hz (List.not_mem_nil _),
        fun hz => absurd hz (List.not_mem_nil _), F7, F8, F9,
        fun ch hch => absurd hch (List.not_mem_nil _), F10, ?_, fun _ => trivial⟩
      intro hc
      exact absurd (by simpa using hc) hsem

theorem schemeChars_safe {c : Char} {cs : List Char} (hca : c.isAlpha = true)
    (hcs : cs.all isSchemeChar = true) :
    ∀ ch ∈ lowerL (c :: cs), (!(ch = '\t' || ch = '\r' || ch = '\n')) = true := by
  intro ch hch
  obtain ⟨x, hx, hax⟩ := List.mem_map.mp hch
  have hxcls : x.isAlpha = true ∨ isSchemeChar x = true := by
    rcases List.mem_cons.mp hx with rfl | hx2
    · exact Or.inl hca
    · exact Or.inr (List.all_eq_true.mp hcs x hx2)
  refine safe_of_ne ?_ ?_ ?_ <;> intro heq <;> rw [heq] at hax <;>
    rw [(asciiLower_eq_special (by decide)).mp hax] at hxcls <;>
    rcases hxcls with hb | hb <;> exact absurd hb (by decide)

theorem normalizeUrlL_ok_shape {url w : List Char}
    (h : normalizeUrlL url none = Except.ok (some w)) :
    ∃ p : ParseResult,
      urlparseL [] (pyStripL url) = Except.ok p ∧
      p.scheme ≠ [] ∧ p.netloc ≠ [] ∧
      lowerL p.scheme ∉ disallowedSchemes ∧
      w = urlunparseL ⟨lowerL p.scheme, lowerL p.netloc,
        (if p.path = [] then ['/'] else p.path), p.params, p.query, []⟩ := by
  unfold normalizeUrlL at h
  by_cases h0 : pyStripL url = []
  · rw [if_pos h0] at h
    exact absurd (Except.ok.inj h) (by simp)
  · rw [if_neg h0] at h
    simp only [] at h
    rcases hp : urlparseL [] (pyStripL url) with e | p
    · rw [hp] at h
      exact Except.noConfusion h
    · rw [hp] at h
      simp only [] at h
      by_cases h1 : (p.scheme = [] || p.netloc = []) = true
      · rw [if_pos h1] at h
        exact absurd (Except.ok.inj h) (by simp)
      · rw [if_neg h1] at h
        simp only [Bool.or_eq_true, decide_eq_true_eq] at h1
        push_neg at h1
        by_cases h2 : lowerL p.scheme ∈ disallowedSchemes
        · rw [if_pos h2] at h
          exact absurd (Except.ok.inj h) (by simp)
        · rw [if_neg h2] at h
          exact ⟨p, rfl, h1.1, h1.2, h2,
            (Option.some.inj (Except.ok.inj h)).symm⟩

/-- A successful `normalize_url` output that is already strip-fixed is a
fixed point of `normalize_url`. -/
theorem normalizeUrlL_fixed {url w : List Char}
    (h : normalizeUrlL url none = Except.ok (some w))
    (hstrip : pyStripL w = w) :
    normalizeUrlL w none = Except.ok (some w) := by
  obtain ⟨p, hp, hs, hn, hdis, hweq⟩ := normalizeUrlL_ok_shape h
  obtain ⟨⟨c, cs, hsch_eq, hca, hcs⟩, G2, G3, G4, G5, G6, G7, G8, G9,
    GS1, GS2, GS3, GS4, GSTAB, GPE⟩ := urlparseL_ok_facts hp hs hn
  have hsch2 : lowerL p.scheme = asciiLower c :: lowerL cs := by
    rw [hsch_eq, lowerL_idem]
    rfl
  have hca2 : (asciiLower c).isAlpha = true := isAlpha_asciiLower hca
  have hcs2 : (lowerL cs).all isSchemeChar = true := by
    rw [List.all_eq_true]
    intro x hx
    obtain ⟨y, hy, hay⟩ := List.mem_map.mp hx
    rw [← hay]
    exact isSchemeChar_asciiLower (List.all_eq_true.mp hcs y hy)
  have hlow2 : lowerL (lowerL p.scheme) = lowerL p.scheme := lowerL_idem _
  have hn2 : lowerL p.netloc ≠ [] := fun hx => hn (List.map_eq_nil_iff.mp hx)
  have hnstop2 : ∀ ch ∈ lowerL p.netloc, ¬(ch = '/' ∨ ch = '?' ∨ ch = '#') := by
    intro ch hch hor
    obtain ⟨x, hx, hax⟩ := List.mem_map.mp hch
    rcases hor with heq | heq | heq <;> rw [heq] at hax <;>
      rw [(asciiLower_eq_special (by decide)).mp hax] at hx
    · exact G2 _ hx (Or.inl rfl)
    · exact G2 _ hx (Or.inr (Or.inl rfl))
    · exact G2 _ hx (Or.inr (Or.inr rfl))
  have hmem_lb : ('[' ∈ lowerL p.netloc) ↔ ('[' ∈ p.netloc) :=
    mem_lowerL_special (by decide)
  have hmem_rb : (']' ∈ lowerL p.netloc) ↔ (']' ∈ p.netloc) :=
    mem_lowerL_special (by decide)
  have hbr2 : (('[' ∈ lowerL p.netloc && ']' ∉ lowerL p.netloc) ||
      (']' ∈ lowerL p.netloc && '[' ∉ lowerL p.netloc)) = false := by
    rw [decide_eq_decide.mpr hmem_lb, decide_eq_decide.mpr hmem_rb,
      decide_eq_decide.mpr (not_congr hmem_rb),
      decide_eq_decide.mpr (not_congr hmem_lb)]
    exact G3
  have hpa1 : (if p.path = [] then ['/'] else p.path).take 1 = ['/'] := by
    by_cases hp0 : p.path = []
    · rw [if_pos hp0]
      rfl
    · rw [if_neg hp0]
      rcases G4 with h4 | h4
      · exact absurd h4 hp0
      · exact h4
  have hpane : (if p.path = [] then ['/'] else p.path) ≠ [] := by
    by_cases hp0 : p.path = []
    · rw [if_pos hp0]
      decide
    · rw [if_neg hp0]
      exact hp0
  have hpq2 : '?' ∉ (if p.path = [] then ['/'] else p.path) := by
    by_cases hp0 : p.path = []
    · rw [if_pos hp0]
      decide
    · rw [if_neg hp0]
      exact G5
  have hph2 : '#' ∉ (if p.path = [] then ['/'] else p.path) := by
    by_cases hp0 : p.path = []
    · rw [if_pos hp0]
      decide
    · rw [if_neg hp0]
      exact G6
  have hsafePA2 : ∀ ch ∈ (if p.path = [] then ['/'] else p.path),
      (!(ch = '\t' || ch = '\r' || ch = '\n')) = true := by
    by_cases hp0 : p.path = []
    · rw [if_pos hp0]
      intro ch hch
      rcases List.mem_cons.mp hch with rfl | hch
      · decide
      · exact absurd hch (List.not_mem_nil _)
    · rw [if_neg hp0]
      exact GS2
  have hsp2 : ';' ∈ (if p.params = [] then (if p.path = [] then ['/'] else p.path)
        else (if p.path = [] then ['/'] else p.path) ++ ';' :: p.params) →
      splitParams (if p.params = [] then (if p.path = [] then ['/'] else p.path)
        else (if p.path = [] then ['/'] else p.path) ++ ';' :: p.params)
        = ((if p.path = [] then ['/'] else p.path), p.params) := by
    by_cases hp0 : p.path = []
    · have hpar0 : p.params = [] := GPE hp0
      rw [if_pos hp0, if_pos hpar0]
      intro hc
      exact absurd hc (by decide)
    · rw [if_neg hp0]
      exact GSTAB
  have hsne : lowerL p.scheme ≠ [] := by
    rw [hsch2]
    exact List.cons_ne_nil _ _
  obtain ⟨pa'', hpa''⟩ : ∃ t,
      (if p.path = [] then ['/'] else p.path) = '/' :: t := by
    cases hc2 : (if p.path = [] then ['/'] else p.path) with
    | nil => exact absurd (hc2 ▸ hpa1) (by simp)
    | cons z t =>
      have hz : z = '/' := by
        have := hc2 ▸ hpa1
        simpa using this
      exact ⟨t, by rw [hz]⟩
  have hsafe2 : removeUnsafe (urlunparseL ⟨lowerL p.scheme, lowerL p.netloc,
      (if p.path = [] then ['/'] else p.path), p.params, p.query, []⟩)
      = urlunparseL ⟨lowerL p.scheme, lowerL p.netloc,
      (if p.path = [] then ['/'] else p.path), p.params, p.query, []⟩ := by
    rw [hpa'', urlunparseL_wf hsne hn2]
    apply removeUnsafe_eq_self.mpr
    intro ch hch
    rcases List.mem_append.mp hch with hch | hch
    · rw [hsch2] at hch
      exact schemeChars_safe hca hcs ch hch
    · rcases List.mem_cons.mp hch with rfl | hch
      · decide
      · rcases List.mem_cons.mp hch with rfl | hch
        · decide
        · rcases List.mem_cons.mp hch with rfl | hch
          · decide
          · rcases List.mem_append.mp hch with hch | hch
            · rcases List.mem_append.mp hch with hch | hch
              · exact lowerL_safe GS1 ch hch
              · by_cases hpar : p.params = []
                · rw [if_pos hpar] at hch
                  exact hsafePA2 ch (hpa'' ▸ hch)
                · rw [if_neg hpar] at hch
                  rcases List.mem_append.mp hch with hch | hch
                  · exact hsafePA2 ch (hpa'' ▸ hch)
                  · rcases List.mem_cons.mp hch with rfl | hch
                    · decide
                    · exact GS3 ch hch
            · by_cases hq : p.query = []
              · rw [if_pos hq] at hch
                exact absurd hch (List.not_mem_nil _)
              · rw [if_neg hq] at hch
                rcases List.mem_cons.mp hch with rfl | hch
                · decide
                · exact GS4 ch hch
  have hrt := urlparse_unparse_roundtrip hsch2 hca2 hcs2 hlow2 hn2 hnstop2 hbr2
    hpa1 hpq2 hph2 G7 G8 G9 hsafe2 hsp2
  have hwne : w ≠ [] := by
    rw [hweq, hpa'', urlunparseL_wf hsne hn2]
    simp
  rw [hweq] at hstrip ⊢
  simp only [normalizeUrlL]
  rw [hstrip, if_neg (hweq ▸ hwne)]
  rw [hrt]
  simp only []
  rw [if_neg (show ¬ ((lowerL p.scheme = [] || lowerL p.netloc = []) = true) from by
    simp only [Bool.or_eq_true, decide_eq_true_eq]
    push_neg
    exact ⟨hsne, hn2⟩)]
  rw [lowerL_idem]
  rw [if_neg hdis]
  rw [lowerL_idem, if_neg hpane]

/-- C8 (amended): `normalize_url` is not idempotent in general
(`claim_C8_counterexample`), but whenever a successful output is already
`strip`-fixed — which is the only way re-normalization can differ —
normalizing the output returns it unchanged. -/
theorem claim_C8_idempotent_on_fixed (u v : String)
    (h : normalize_url u none = Except.ok (some v))
    (hstrip : pyStrip v = v) :
    normalize_url v none = Except.ok (some v) := by
  unfold normalize_url at h ⊢
  simp only [Option.map_none'] at h ⊢
  rcases hn : normalizeUrlL u.data none with e | ow
  · rw [hn] at h
    exact Except.noConfusion h
  · rw [hn] at h
    simp only [Except.map] at h
    have how := Except.ok.inj h
    rcases ow with _ | w
    · exact absurd how (by simp)
    · simp only [Option.map] at how
      have hwv : String.mk w = v := Option.some.inj how
      have hwdata : w = v.data := congrArg String.data hwv
      subst hwdata
      have hstrip2 : pyStripL v.data = v.data := congrArg String.data hstrip
      rw [normalizeUrlL_fixed hn hstrip2]
      rfl

/-- Witness: `http://h/a` normalizes to itself and is strip-fixed, so the
amended C8 theorem applies to it. -/
theorem claim_C8_witness :
    normalize_url "http://h/a" none = Except.ok (some "http://h/a") ∧
    pyStrip "http://h/a" = "http://h/a" ∧
    normalize_url "http://h/a" none = Except.ok (some "http://h/a") :=
  ⟨by decide, by decide,
    claim_C8_idempotent_on_fixed "http://h/a" "http://h/a" (by decide) (by decide)⟩

end Scraper
